import Mathlib

/-!
Verification of the subtitle-translater core (SubtitleService, LLMTranslator,
SRTParser) against its natural-language specification.

JavaScript strings are modelled as `List Char` (`JStr`).  JavaScript string
primitives used by the source — `String.prototype.replace` with a global
regex over a literal pattern, `replace` with a string pattern (first
occurrence only), `split`, `trim`, `includes`, `padStart`, `parseInt` — are
given executable fuel-based or structural definitions so that every claim
can be evaluated on concrete inputs by kernel reduction.
-/

/-- JavaScript strings are modelled as lists of characters. -/
abbrev JStr := List Char

/-- Coercion from Lean string literals into the model. -/
def js (s : String) : JStr := s.data

/-- Whitespace recognised by JavaScript `trim` and the regex class used by the
source (`\s`); restricted to the characters that can actually occur in the
inputs handled here: ASCII whitespace, NBSP and the BOM. -/
def isWS (c : Char) : Bool :=
  c == ' ' || c == '\t' || c == '\n' || c == '\r' || c == '\x0b' ||
  c == '\x0c' || c == '\u00A0' || c == '\uFEFF'

/-- JavaScript `String.prototype.trim`. -/
def jsTrim (s : JStr) : JStr :=
  ((s.dropWhile isWS).reverse.dropWhile isWS).reverse

/-- Does `p` occur in `s` as a contiguous substring?  Models JavaScript
`String.prototype.includes`. -/
def containsSub (p : JStr) : JStr → Bool
  | [] => p.isEmpty
  | c :: t => p.isPrefixOf (c :: t) || containsSub p t

/-- No dollar character occurs in the string (the replacement value then
contains none of the JavaScript dollar-substitution patterns). -/
def dollarFree (s : JStr) : Bool := s.all (· != '$')

/-- JavaScript GetSubstitution for a replacement value without capture
groups: expand the dollar patterns of the replacement string `v` at a match
site — `$$` is a literal dollar, `$&` the matched substring `m`, a dollar
followed by the character 96 (backquote) the portion `b` of the subject
before the match, a dollar followed by the character 39 (single quote) the
portion `a` after the match; any other dollar sequence is kept literally
(the patterns used by the source have no capture groups, so `$1` etc. are
literal). -/
def dollarExpand (m b a : JStr) : JStr → JStr
  | [] => []
  | c :: rest =>
    if c = '$' then
      match rest with
      | [] => [c]
      | d :: rest2 =>
        if d = '$' then '$' :: dollarExpand m b a rest2
        else if d = '&' then m ++ dollarExpand m b a rest2
        else if d = Char.ofNat 96 then b ++ dollarExpand m b a rest2
        else if d = Char.ofNat 39 then a ++ dollarExpand m b a rest2
        else c :: d :: dollarExpand m b a rest2
    else c :: dollarExpand m b a rest

/-- Fuel-driven worker for `replaceAll`.  `full` is the whole subject and
`pos` the number of characters already consumed, so that the dollar
expansion of the replacement sees the correct before/after context of each
match.  Each step consumes at least one character of the subject when the
pattern is nonempty, so fuel equal to the subject length is always
sufficient. -/
def raGo (p v full : JStr) : Nat → Nat → JStr → JStr
  | _, _, [] => []
  | 0, _, s => s
  | f + 1, pos, c :: t =>
    if p.isPrefixOf (c :: t) then
      dollarExpand p (full.take pos) (full.drop (pos + p.length)) v
        ++ raGo p v full f (pos + p.length) (t.drop (p.length - 1))
    else c :: raGo p v full f (pos + 1) t

/-- JavaScript `s.replace(/pat/g, v)` for a literal (regex-escaped) pattern:
replace every leftmost, non-overlapping occurrence of `p` in `s` by the
dollar-expansion of `v` at that match (the matched substring of a literal
pattern is the pattern itself).  All patterns used by the source are
nonempty literals without capture groups. -/
def replaceAll (p v s : JStr) : JStr :=
  if p.isEmpty then s else raGo p v s s.length 0 s

/-- Fuel-driven worker of the literal-insertion restriction of `replaceAll`. -/
def raLitGo (p v : JStr) : Nat → JStr → JStr
  | _, [] => []
  | 0, s => s
  | f + 1, c :: t =>
    if p.isPrefixOf (c :: t) then v ++ raLitGo p v f (t.drop (p.length - 1))
    else c :: raLitGo p v f t

/-- Literal-insertion restriction of `replaceAll` (proof-internal): inserts
the replacement value verbatim.  `replaceAll` coincides with it whenever
the replacement value is dollar-free (`replaceAll_eq_lit`). -/
def replaceAllLit (p v s : JStr) : JStr :=
  if p.isEmpty then s else raLitGo p v s.length s

/-- JavaScript `s.replace(p, v)` with a plain string pattern: only the first
occurrence is replaced.  The model inserts the replacement value verbatim,
i.e. it is the literal-insertion restriction of the JavaScript call, exact
for replacement values free of dollar-substitution patterns (here `v` is
the rendered context block). -/
def replaceFirst (p v : JStr) : JStr → JStr
  | [] => if p.isEmpty then v else []
  | c :: t =>
    if p.isPrefixOf (c :: t) then v ++ (c :: t).drop p.length
    else c :: replaceFirst p v t

/-- Fuel-driven worker for `splitOnSep`. -/
def soGo (sep : JStr) : Nat → JStr → JStr → List JStr
  | _, cur, [] => [cur]
  | 0, cur, s => [cur ++ s]
  | f + 1, cur, c :: t =>
    if sep.isPrefixOf (c :: t) then cur :: soGo sep f [] (t.drop (sep.length - 1))
    else soGo sep f (cur ++ [c]) t

/-- JavaScript `s.split(sep)` for a nonempty literal separator. -/
def splitOnSep (sep s : JStr) : List JStr :=
  if sep.isEmpty then [s] else soGo sep s.length [] s

/-- Split a list at every character satisfying `p` (separators dropped);
models JavaScript `split` on a single-character regex class. -/
def splitP (p : Char → Bool) : JStr → List JStr
  | [] => [[]]
  | c :: t =>
    match splitP p t with
    | [] => if p c then [[], []] else [[c]]
    | h :: r => if p c then [] :: h :: r else (c :: h) :: r

/-- JavaScript `s.split(c)` for a single-character separator. -/
def splitChar (c : Char) (s : JStr) : List JStr := splitP (· == c) s

/-- JavaScript array access `a[i]` on an array whose slots may be undefined:
out-of-range access and an undefined slot both yield `none`. -/
def jsGet (l : List (Option JStr)) (i : Nat) : Option JStr := (l[i]?).bind id

/-- JavaScript `padStart(n, c)`. -/
def padStart (n : Nat) (c : Char) (s : JStr) : JStr :=
  List.replicate (n - s.length) c ++ s

/-- Numeric value of a list of decimal digits. -/
def digitsVal (l : JStr) : Nat :=
  l.foldl (fun a c => a * 10 + (c.toNat - 48)) 0

/-- JavaScript `parseInt(s, 10)`: skip leading whitespace, optional sign,
then at least one decimal digit (trailing garbage ignored); `none` models
`NaN`. -/
def parseIntJS (s : JStr) : Option Int :=
  let s1 := s.dropWhile isWS
  match s1 with
  | '-' :: r =>
    let d := r.takeWhile Char.isDigit
    if d.isEmpty then none else some (-(digitsVal d : Int))
  | '+' :: r =>
    let d := r.takeWhile Char.isDigit
    if d.isEmpty then none else some (digitsVal d : Int)
  | r =>
    let d := r.takeWhile Char.isDigit
    if d.isEmpty then none else some (digitsVal d : Int)

/-- One subtitle entry (`SubtitleEntry` in `@/types/subtitle`). -/
structure SubtitleEntry where
  index : Int
  startTime : JStr
  endTime : JStr
  text : JStr
deriving DecidableEq

/-- A parsed subtitle document (`SubtitleData`). -/
structure SubtitleData where
  entries : List SubtitleEntry
  format : JStr
deriving DecidableEq

/-- The per-call options object handed to `Translator.translate`.  JavaScript
passes `enableContext: enableContext || undefined` and likewise for
coherence; since the receiver only tests truthiness, `false` faithfully
models the `undefined` case. -/
structure TransOpts where
  context : Option JStr
  enableContext : Bool
  enableCoherence : Bool
deriving DecidableEq

/-- Failure of a single call of the external translator capability.  The
source distinguishes cancellation from other failures by the thrown error
message 翻译已取消. -/
inductive TransErr where
  | cancelled
  | failure (msg : JStr)
deriving DecidableEq

/-- The external translator capability for the single-line paths: given the
unit text and the options object, either a translation or a failure.  The
language pair is fixed for a job and is therefore not a parameter. -/
abbrev UnitTranslator := JStr → Option TransOpts → Except TransErr JStr

/-- Context block built for unit `i` (SubtitleService.ts lines 225-247 and
410-432): up to `eff` preceding texts, the target sentence, and up to `eff`
following texts, labelled and joined by blank lines. -/
def buildContextBlock (texts : List JStr) (i : Nat) (target : JStr) (eff : Nat) : JStr :=
  let before := (texts.take i).drop (i - eff)
  let after := (texts.drop (i + 1)).take eff
  let parts :=
    (if before.isEmpty then [] else [js "上文：\n" ++ List.intercalate (js "\n") before]) ++
    [js "【目标句】\n" ++ target] ++
    (if after.isEmpty then [] else [js "下文：\n" ++ List.intercalate (js "\n") after])
  List.intercalate (js "\n\n") parts

/-- Options object built for unit `i` by both single-line paths
(SubtitleService.ts lines 220-247 and 405-432).  Coherence mode forces an
effective context window of at least 1; note that `contextLines` is used as
supplied, without any clamping. -/
def mkUnitOptions (texts : List JStr) (i : Nat) (target : JStr) (contextLines : Nat)
    (enableContext enableCoherence : Bool) : Option TransOpts :=
  let eff := if enableCoherence then max contextLines 1 else contextLines
  if eff > 0 then
    some ⟨some (buildContextBlock texts i target eff), enableContext, enableCoherence⟩
  else if enableCoherence then some ⟨none, false, true⟩
  else if enableContext then some ⟨none, true, false⟩
  else none

/-- Loop body of `translateSingleLineSerial` (SubtitleService.ts lines
398-454): at each index first poll the cancellation flag, then call the
translator; any translator error propagates (there is no try/catch on this
path).  `aborted k` is the value of the cancellation flag when it is polled
before unit `k`. -/
def serialGo (tr : UnitTranslator) (texts : List JStr) (contextLines : Nat)
    (eCtx eCoh : Bool) (aborted : Nat → Bool) : Nat → List JStr → Except TransErr (List JStr)
  | _, [] => .ok []
  | i, t :: rest =>
    if aborted i then .error .cancelled
    else
      match tr t (mkUnitOptions texts i t contextLines eCtx eCoh) with
      | .error e => .error e
      | .ok v => (serialGo tr texts contextLines eCtx eCoh aborted (i + 1) rest).map (v :: ·)

/-- `SubtitleService.translateSingleLineSerial`: sequential single-line
translation.  Progress emission is side-effect-only and is modelled
separately by `wrappedEntries`. -/
def translateSingleLineSerial (tr : UnitTranslator) (texts : List JStr)
    (contextLines : Nat) (eCtx eCoh : Bool) (aborted : Nat → Bool) :
    Except TransErr (List JStr) :=
  serialGo tr texts contextLines eCtx eCoh aborted 0 texts

/-- Effective parallelism computed by `translateSingleLine` (line 190):
`parallelCount && parallelCount > 1 ? Math.min(10, Math.max(2, parallelCount)) : 1`. -/
def effectiveParallelCount : Option Nat → Nat
  | none => 1
  | some p => if p > 1 then min 10 (max 2 p) else 1

/-- Batch size clamp in `translateMultiLine` (line 476):
`Math.max(2, Math.min(10, batchSize))`. -/
def clampedBatch (b : Nat) : Nat := max 2 (min 10 b)

/-- The reserved sentinel separator of multi-line mode (line 460). -/
def MULTI_LINE_SEP : JStr := js "|||"

/-- Decimal rendering of a number, as JavaScript template literals do. -/
def natChars (n : Nat) : JStr := (Nat.repr n).data

/-- The single request string built for one batch in multi-line mode
(lines 489-494): instruction, blank line, then the batch texts joined by
the sentinel separator on its own line. -/
def mkBatchContent (batch : List JStr) : JStr :=
  let sep := MULTI_LINE_SEP
  let merged := List.intercalate (js "\n" ++ sep ++ js "\n") batch
  let instruction :=
    js "请将以下 " ++ natChars batch.length ++
    js " 段字幕分别翻译成目标语言。严格使用 \"" ++ sep ++
    js "\" 分隔每一段的翻译结果，共应输出 " ++ natChars batch.length ++
    js " 段，顺序与输入一致。仅输出翻译内容，不要编号或说明。"
  instruction ++ js "\n\n" ++ merged

/-- Per-batch slot filling (lines 499-501): slot `j` of the batch receives
`parts[j]?.trim() ?? batch[j]` — the trimmed returned segment when present,
the original source text when the split returned too few segments. -/
def fillBatch : List JStr → List JStr → List JStr
  | _, [] => []
  | [], orig :: rest => orig :: fillBatch [] rest
  | p :: ps, _ :: rest => jsTrim p :: fillBatch ps rest

/-- Fuel-driven chunking of the positional index space into contiguous runs
of size `n` (the `start += clampedSize` loop). -/
def chunksGo (n : Nat) : Nat → List JStr → List (List JStr)
  | _, [] => []
  | 0, l => [l]
  | f + 1, l => l.take n :: chunksGo n f (l.drop n)

/-- Contiguous runs of size `n` (last run may be shorter). -/
def chunks (n : Nat) (l : List JStr) : List (List JStr) :=
  if n = 0 then [l] else chunksGo n l.length l

/-- The external translator capability as used by multi-line mode: one call
per batch on the merged request string. -/
abbrev BatchTranslator := JStr → Except TransErr JStr

/-- Batch loop of `translateMultiLine` (lines 481-522): poll cancellation,
issue one call per batch, split the result on the sentinel and fill slots;
a translator failure on a batch is not caught and aborts the whole job. -/
def multiGo (tr : BatchTranslator) (aborted : Nat → Bool) :
    Nat → List (List JStr) → Except TransErr (List JStr)
  | _, [] => .ok []
  | k, b :: rest =>
    if aborted k then .error .cancelled
    else
      match tr (mkBatchContent b) with
      | .error e => .error e
      | .ok t =>
        (multiGo tr aborted (k + 1) rest).map
          (fillBatch (splitOnSep MULTI_LINE_SEP t) b ++ ·)

/-- `SubtitleService.translateMultiLine`: clamp the batch size, then process
the contiguous runs strictly in order. -/
def translateMultiLine (tr : BatchTranslator) (texts : List JStr) (batchSize : Nat)
    (aborted : Nat → Bool) : Except TransErr (List JStr) :=
  multiGo tr aborted 0 (chunks (clampedBatch batchSize) texts)

/-- Final per-entry assembly in `translateSubtitle` (lines 158-161):
`text: translatedTexts[index]?.trim() || entry.text` — the trimmed
translation when present and nonempty after trimming, the original source
text otherwise. -/
def assembleEntry (e : SubtitleEntry) (t? : Option JStr) : SubtitleEntry :=
  { e with
    text :=
      match t? with
      | some t => if (jsTrim t).isEmpty then e.text else jsTrim t
      | none => e.text }

/-- Worker for `assembleEntries`, carrying the positional index. -/
def assembleGo (ts : List JStr) (i : Nat) : List SubtitleEntry → List SubtitleEntry
  | [] => []
  | e :: rest => assembleEntry e ts[i]? :: assembleGo ts (i + 1) rest

/-- The final `entries.map((entry, index) => ...)` of `translateSubtitle`. -/
def assembleEntries (entries : List SubtitleEntry) (ts : List JStr) : List SubtitleEntry :=
  assembleGo ts 0 entries

/-- The reserved in-progress placeholder text (line 115). -/
def PLACEHOLDER : JStr := js "[翻译中...]"

/-- Slot rendering of `wrappedProgress` (lines 110-120): a defined slot whose
value is nonempty after trimming is shown trimmed; an undefined slot, or a
slot whose value trims to the empty string, is shown as the placeholder. -/
def renderSlot : Option JStr → JStr
  | some t => if (jsTrim t).isEmpty then PLACEHOLDER else jsTrim t
  | none => PLACEHOLDER

/-- Worker for `wrappedEntries`, carrying the positional index. -/
def renderGo (tts : List (Option JStr)) (i : Nat) : List SubtitleEntry → List SubtitleEntry
  | [] => []
  | e :: rest => { e with text := renderSlot (jsGet tts i) } :: renderGo tts (i + 1) rest

/-- The entry list embedded in every progress snapshot (`wrappedProgress`,
lines 100-129): the full positional-order entry list with every slot
rendered by `renderSlot`. -/
def wrappedEntries (entries : List SubtitleEntry) (tts : List (Option JStr)) :
    List SubtitleEntry :=
  renderGo tts 0 entries

/-- Phase of a single-line bounded-parallel job: running, ended by
cancellation, or finished normally (line 377 reached). -/
inductive Phase where
  | running
  | cancelled
  | finished
deriving DecidableEq

/-- State of the bounded-parallel scheduler of `translateSingleLine`
(lines 206-377): the positional results slot array, the next index to
start, the set of started in-flight indices, the cancellation flag and the
job phase. -/
structure PState where
  results : List (Option JStr)
  nextIndex : Nat
  active : List Nat
  aborted : Bool
  phase : Phase
deriving DecidableEq

/-- The outcome of the translator capability for positional index `i` in the
bounded-parallel path (each index is started, and hence translated, at
most once). -/
abbrev IdxTranslator := Nat → Except TransErr JStr

/-- Small-step semantics of the bounded-parallel scheduling loop.  Each step
is one synchronous segment of the JavaScript code between `await` points;
`abort` is the external cancellation source flipping the flag.  The
relation over-approximates the source scheduler (it permits every
interleaving the event loop could produce), so safety theorems over it
cover all real schedules.
  * `launch` (lines 215-217 and 316-319, 347-349): a unit starts only while
    the flag is unobserved and fewer than `P` units are in flight;
  * `completeOk`/`completeFail` (lines 249-309): a completed unit writes its
    translation — or, when the call failed for a reason other than
    cancellation, the original source text — into its own positional slot;
  * `completeAborted` (lines 257-260): a unit completing after the flag was
    set writes nothing and the job ends cancelled;
  * `completeCancelErr` (lines 283-287, 351-355): a translator failure that
    is itself the cancellation error is rethrown;
  * `observeCancel` (lines 322-332, 371-374): the loop polls the flag;
  * `finish` (line 377): the loop exits normally. -/
inductive PStep (P : Nat) (tr : IdxTranslator) (texts : List JStr) :
    PState → PState → Prop where
  | abort (s : PState) :
      s.phase = Phase.running →
      PStep P tr texts s { s with aborted := true }
  | observeCancel (s : PState) :
      s.phase = Phase.running → s.aborted = true →
      PStep P tr texts s { s with phase := Phase.cancelled }
  | launch (s : PState) :
      s.phase = Phase.running → s.aborted = false →
      s.active.length < P → s.nextIndex < texts.length →
      PStep P tr texts s
        { s with active := s.nextIndex :: s.active, nextIndex := s.nextIndex + 1 }
  | completeOk (s : PState) (i : Nat) (v : JStr) :
      s.phase = Phase.running → i ∈ s.active → s.aborted = false →
      tr i = .ok v →
      PStep P tr texts s
        { s with results := s.results.set i (some v), active := s.active.erase i }
  | completeFail (s : PState) (i : Nat) (m : JStr) :
      s.phase = Phase.running → i ∈ s.active → s.aborted = false →
      tr i = .error (.failure m) →
      PStep P tr texts s
        { s with results := s.results.set i (some (texts.getD i [])),
                 active := s.active.erase i }
  | completeCancelErr (s : PState) (i : Nat) :
      s.phase = Phase.running → i ∈ s.active → s.aborted = false →
      tr i = .error .cancelled →
      PStep P tr texts s
        { s with phase := Phase.cancelled, active := s.active.erase i }
  | completeAborted (s : PState) (i : Nat) :
      s.phase = Phase.running → i ∈ s.active → s.aborted = true →
      PStep P tr texts s
        { s with phase := Phase.cancelled, active := s.active.erase i }
  | finish (s : PState) :
      s.phase = Phase.running → s.aborted = false → s.active = [] →
      texts.length ≤ s.nextIndex →
      PStep P tr texts s { s with phase := Phase.finished }

/-- Reflexive-transitive closure of the scheduler: one possible schedule. -/
def PStepStar (P : Nat) (tr : IdxTranslator) (texts : List JStr) :
    PState → PState → Prop :=
  Relation.ReflTransGen (PStep P tr texts)

/-- Initial scheduler state of a job over `texts`. -/
def initPState (texts : List JStr) : PState :=
  ⟨List.replicate texts.length none, 0, [], false, Phase.running⟩

/-- Bookkeeping invariant of the parallel scheduler: the slot array has one
slot per unit, in-flight indices are pairwise distinct already-started
positions, and slots of in-flight or not-yet-started units are unset
(single-writer-per-slot discipline). -/
def PInv (texts : List JStr) (s : PState) : Prop :=
  s.results.length = texts.length ∧
  (∀ i ∈ s.active, i < s.nextIndex) ∧
  s.active.Nodup ∧
  (∀ i ∈ s.active, s.results[i]? = some none) ∧
  (∀ i, s.nextIndex ≤ i → i < s.results.length → s.results[i]? = some none)

/-- The value a completed unit deposits in its positional slot: the
translation on success, the original source text on a caught failure. -/
def slotValue (tr : IdxTranslator) (texts : List JStr) (i : Nat) : JStr :=
  match tr i with
  | .ok v => v
  | .error _ => texts.getD i []

/-- Placeholder tokens recognised by the prompt resolution chain of
`LLMTranslator.translate` (lines 57-63). -/
def tokCustom : JStr := js "{custom_prompt}"

/-- The `{context_prompt}` token. -/
def tokContextP : JStr := js "{context_prompt}"

/-- The `{coherence_prompt}` token. -/
def tokCoherence : JStr := js "{coherence_prompt}"

/-- The `{content}` token. -/
def tokContent : JStr := js "{content}"

/-- The `{sourceLang}` token. -/
def tokSource : JStr := js "{sourceLang}"

/-- The `{targetLang}` token. -/
def tokTarget : JStr := js "{targetLang}"

/-- All recognised placeholder tokens, in the order they are substituted. -/
def TOKENS : List JStr :=
  [tokCustom, tokContextP, tokCoherence, tokContent, tokSource, tokTarget]

/-- The placeholder resolution chain of `LLMTranslator.translate`
(lines 57-63): six sequential global replacements over the main template. -/
def resolveChain (tmpl custom ctxp coh content sl tl : JStr) : JStr :=
  replaceAll tokTarget tl
    (replaceAll tokSource sl
      (replaceAll tokContent content
        (replaceAll tokCoherence coh
          (replaceAll tokContextP ctxp
            (replaceAll tokCustom custom tmpl)))))

/-- Literal-insertion variant of the resolution chain (proof-internal);
`resolveChain` coincides with it whenever all six values are dollar-free
(`resolveChain_eq_lit`). -/
def resolveChainLit (tmpl custom ctxp coh content sl tl : JStr) : JStr :=
  replaceAllLit tokTarget tl
    (replaceAllLit tokSource sl
      (replaceAllLit tokContent content
        (replaceAllLit tokCoherence coh
          (replaceAllLit tokContextP ctxp
            (replaceAllLit tokCustom custom tmpl)))))

/-- Configuration of `LLMTranslator` (prompt-relevant fields). -/
structure LLMConfig where
  prompt : JStr
  contextPrompt : Option JStr
  coherencePrompt : Option JStr
  customPrompt : Option JStr
deriving DecidableEq

/-- Truthiness of an optional string, as JavaScript conditionals use it. -/
def truthy : Option JStr → Bool
  | some s => !s.isEmpty
  | none => false

/-- The resolved `{custom_prompt}` value (line 43):
`this.config.customPrompt?.trim() || ''`. -/
def customResolved (cfg : LLMConfig) : JStr :=
  match cfg.customPrompt with
  | some cp => jsTrim cp
  | none => []

/-- The resolved `{context_prompt}` value (lines 46-49): the context template
with its first `{context}` occurrence replaced, but only when context use is
enabled, a nonempty context block exists and a nonempty context template is
configured. -/
def contextResolved (cfg : LLMConfig) (opts : Option TransOpts) : JStr :=
  match opts, cfg.contextPrompt with
  | some o, some cp =>
    if o.enableContext && truthy o.context && !cp.isEmpty then
      replaceFirst (js "{context}") (o.context.getD []) cp
    else []
  | _, _ => []

/-- The resolved `{coherence_prompt}` value (lines 52-55), analogous to
`contextResolved` but gated on coherence mode. -/
def coherenceResolved (cfg : LLMConfig) (opts : Option TransOpts) : JStr :=
  match opts, cfg.coherencePrompt with
  | some o, some cp =>
    if o.enableCoherence && truthy o.context && !cp.isEmpty then
      replaceFirst (js "{context}") (o.context.getD []) cp
    else []
  | _, _ => []

/-- The full prompt built by `LLMTranslator.translate` (lines 42-68): the
resolution chain, followed by the coherence-only append fallback — when
coherence mode is on, the resolved coherence content is nonempty and the
main template does not literally contain `{coherence_prompt}`, that content
is appended to the rendered prompt. -/
def buildPrompt (cfg : LLMConfig) (text sl tl : JStr) (opts : Option TransOpts) : JStr :=
  let coh := coherenceResolved cfg opts
  let p := resolveChain cfg.prompt (customResolved cfg) (contextResolved cfg opts)
    coh text sl tl
  if (opts.map (·.enableCoherence)).getD false && !coh.isEmpty &&
      !containsSub tokCoherence cfg.prompt then
    p ++ js "\n\n" ++ coh
  else p

/-- Match the timestamp pattern `\d{2}:\d{2}:\d{2}[,.]\d{3}` at the start of
the input; on success return the 12 matched characters and the rest. -/
def matchTS : JStr → Option (JStr × JStr)
  | a :: b :: c :: d :: e :: f :: g :: h :: i :: j :: k :: l :: rest =>
    if a.isDigit && b.isDigit && c == ':' && d.isDigit && e.isDigit && f == ':' &&
        g.isDigit && h.isDigit && (i == ',' || i == '.') &&
        j.isDigit && k.isDigit && l.isDigit then
      some ([a, b, c, d, e, f, g, h, i, j, k, l], rest)
    else none
  | _ => none

/-- Match the full two-timestamp pattern
`(\d{2}:\d{2}:\d{2}[,.]\d{3})\s*-->\s*(\d{2}:\d{2}:\d{2}[,.]\d{3})` at the
start of the input, returning the two captured timestamps. -/
def matchPatAt (s : JStr) : Option (JStr × JStr) :=
  match matchTS s with
  | none => none
  | some (t1, r1) =>
    match r1.dropWhile isWS with
    | '-' :: '-' :: '>' :: r3 =>
      match matchTS (r3.dropWhile isWS) with
      | none => none
      | some (t2, _) => some (t1, t2)
    | _ => none

/-- Unanchored regex search for the two-timestamp pattern (JavaScript
`timeLine.match(...)`, line 224): try every position, leftmost first. -/
def searchTime : JStr → Option (JStr × JStr)
  | [] => none
  | c :: t =>
    match matchPatAt (c :: t) with
    | some r => some r
    | none => searchTime t

/-- Anchored check `^\d{2}:\d{2}:\d{2},\d{3}$` (lines 233, 237). -/
def anchoredTime : JStr → Bool
  | [a, b, c, d, e, f, g, h, i, j, k, l] =>
    a.isDigit && b.isDigit && c == ':' && d.isDigit && e.isDigit && f == ':' &&
    g.isDigit && h.isDigit && i == ',' && j.isDigit && k.isDigit && l.isDigit
  | _ => false

/-- `SRTParser.normalizeTime` (lines 263-270): split on `[:,.]` and re-pad the
first four components. -/
def normalizeTime (t : JStr) : JStr :=
  let parts := splitP (fun c => c == ':' || c == ',' || c == '.') t
  if 4 ≤ parts.length then
    padStart 2 '0' (parts.getD 0 []) ++ [':'] ++
    padStart 2 '0' (parts.getD 1 []) ++ [':'] ++
    padStart 2 '0' (parts.getD 2 []) ++ [','] ++
    padStart 3 '0' (parts.getD 3 [])
  else t

/-- Timestamp post-processing in `SRTParser.parse` (lines 228-239): replace
the first period by a comma, then repair the format if the anchored
re-check fails. -/
def fixTime (t : JStr) : JStr :=
  let r := replaceFirst (js ".") (js ",") t
  if anchoredTime r then r else normalizeTime r

/-- Index of the last newline in `run`, if any. -/
def lastNLIdx (run : JStr) : Option Nat :=
  (run.reverse.findIdx? (· == '\n')).map (fun k => run.length - 1 - k)

/-- Fuel-driven worker for `splitBlocks`: scan for the leftmost match of the
block separator regex `\n\s*\n`.  At a newline, the greedy `\s*` runs to
the end of the following whitespace run and backtracks to the last newline
inside it; if the run contains no further newline there is no match at this
position. -/
def sbGo : Nat → JStr → JStr → List JStr
  | _, acc, [] => [acc]
  | 0, acc, s => [acc ++ s]
  | f + 1, acc, c :: t =>
    if c == '\n' then
      match lastNLIdx (t.takeWhile isWS) with
      | some k => acc :: sbGo f [] (t.drop (k + 1))
      | none => sbGo f (acc ++ [c]) t
    else sbGo f (acc ++ [c]) t

/-- JavaScript `content.split(/\n\s*\n/)` (line 211). -/
def splitBlocks (s : JStr) : List JStr := sbGo s.length [] s

/-- Strip a leading byte-order mark (line 208). -/
def stripBOM : JStr → JStr
  | [] => []
  | c :: t => if c == '\uFEFF' then t else c :: t

/-- Per-block parsing of `SRTParser.parse` (lines 213-252): at least two
lines, a first line accepted by `parseInt`, a second line containing the
two-timestamp pattern, and a nonempty joined-and-trimmed text; otherwise no
entry is emitted. -/
def parseBlock (block : JStr) : Option SubtitleEntry :=
  match splitChar '\n' (jsTrim block) with
  | l0 :: l1 :: rest =>
    match parseIntJS (jsTrim l0) with
    | none => none
    | some idx =>
      match searchTime (jsTrim l1) with
      | none => none
      | some (t1, t2) =>
        let text := jsTrim (List.intercalate (js "\n") rest)
        if text.isEmpty then none
        else some ⟨idx, fixTime t1, fixTime t2, text⟩
  | _ => none

namespace SRTParser

/-- `SRTParser.parse` (lines 204-258): strip the BOM, split into blank-line
delimited blocks, keep the blocks with nonempty trimmed content, and emit
an entry per block that satisfies `parseBlock`. -/
def parse (content : JStr) : SubtitleData :=
  let clean := stripBOM content
  let blocks := (splitBlocks clean).filter (fun b => !(jsTrim b).isEmpty)
  ⟨blocks.filterMap parseBlock, js "srt"⟩

end SRTParser

/-- Concrete four-entry job whose translator fails (with a non-cancellation
error) on the unit whose text is that of index 2 only. -/
def c1Tr : UnitTranslator := fun t _ =>
  if t = js "c" then .error (.failure (js "boom")) else .ok (js "T-" ++ t)

/-- Translator that succeeds on every unit, for the amended C1 witness. -/
def c1wTr : UnitTranslator := fun t _ => .ok (js "X" ++ t)

/-- Translator whose every unit fails, for the amended C1 witness. -/
def c1wFailTr : IdxTranslator := fun _ => .error (.failure (js "boom"))

/-- No brace character occurs in the string. -/
def braceFree (s : JStr) : Bool := s.all (· != '{')

/-- A piece of a well-formed template: literal text or a recognised token. -/
inductive PPiece where
  | lit (s : JStr)
  | tok (t : JStr)
deriving DecidableEq

/-- Flatten a piece list back into the template string. -/
def flatP : List PPiece → JStr
  | [] => []
  | PPiece.lit s :: r => s ++ flatP r
  | PPiece.tok t :: r => t ++ flatP r

/-- Substitute one recognised token by a literal value, piecewise. -/
def substPiece (p v : JStr) : PPiece → PPiece
  | PPiece.lit s => PPiece.lit s
  | PPiece.tok t => if t = p then PPiece.lit v else PPiece.tok t

/-- Substitute one recognised token by a literal value in a piece list. -/
def substTok (p v : JStr) (ps : List PPiece) : List PPiece := ps.map (substPiece p v)

/-- A piece is admissible when its literal text is brace-free and its token
is one of the recognised placeholder tokens. -/
def pieceOK : PPiece → Bool
  | PPiece.lit s => braceFree s
  | PPiece.tok t => decide (t ∈ TOKENS)

/-- A well-formed template decomposition: admissible pieces only. -/
def GoodPieces (ps : List PPiece) : Prop := ∀ pc ∈ ps, pieceOK pc = true

/-- All six substitution passes of the resolution chain, at the piece level,
in source order. -/
def substAll (custom ctxp coh content sl tl : JStr) (ps : List PPiece) : List PPiece :=
  substTok tokTarget tl (substTok tokSource sl (substTok tokContent content
    (substTok tokCoherence coh (substTok tokContextP ctxp
      (substTok tokCustom custom ps)))))

theorem raLitGo_fuel (p v : JStr) :
    ∀ (f g : Nat) (s : JStr), s.length ≤ f → s.length ≤ g →
      raLitGo p v f s = raLitGo p v g s := by
  intro f
  induction f with
  | zero =>
    intro g s hf _
    have : s = [] := List.eq_nil_of_length_eq_zero (Nat.le_zero.mp hf)
    subst this
    cases g <;> rfl
  | succ f ih =>
    intro g s hf hg
    cases s with
    | nil => cases g <;> rfl
    | cons c t =>
      cases g with
      | zero => exact absurd hg (by simp)
      | succ g =>
        have hdrop : (t.drop (p.length - 1)).length ≤ t.length := by
          rw [List.length_drop]; omega
        have hf1 : t.length ≤ f := by simpa using hf
        have hg1 : t.length ≤ g := by simpa using hg
        by_cases h : p.isPrefixOf (c :: t) = true
        · simp only [raLitGo, if_pos h]
          rw [ih _ _ (le_trans hdrop hf1) (le_trans hdrop hg1)]
        · simp only [raLitGo, if_neg h]
          rw [ih _ _ hf1 hg1]

theorem replaceAllLit_nil (p v : JStr) : replaceAllLit p v [] = [] := by
  unfold replaceAllLit
  cases hp : p.isEmpty <;> simp [raLitGo]

theorem replaceAllLit_cons_pos (p v : JStr) (c : Char) (t : JStr)
    (hp : ¬ p.isEmpty = true) (h : p.isPrefixOf (c :: t) = true) :
    replaceAllLit p v (c :: t) = v ++ replaceAllLit p v (t.drop (p.length - 1)) := by
  unfold replaceAllLit
  rw [if_neg hp, if_neg hp]
  simp only [List.length_cons, raLitGo, if_pos h]
  congr 1
  exact raLitGo_fuel p v _ _ _ (by rw [List.length_drop]; omega) (le_refl _)

theorem replaceAllLit_cons_neg (p v : JStr) (c : Char) (t : JStr)
    (hp : ¬ p.isEmpty = true) (h : ¬ p.isPrefixOf (c :: t) = true) :
    replaceAllLit p v (c :: t) = c :: replaceAllLit p v t := by
  unfold replaceAllLit
  rw [if_neg hp, if_neg hp]
  simp only [List.length_cons, raLitGo, if_neg h]


theorem assembleGo_length (ts : List JStr) :
    ∀ (l : List SubtitleEntry) (i : Nat), (assembleGo ts i l).length = l.length := by
  intro l
  induction l with
  | nil => intro i; rfl
  | cons e rest ih => intro i; simp [assembleGo, ih]

theorem assembleGo_getElem (ts : List JStr) :
    ∀ (l : List SubtitleEntry) (i j : Nat),
      (assembleGo ts i l)[j]? = (l[j]?).map (fun e => assembleEntry e ts[i + j]?) := by
  intro l
  induction l with
  | nil => intro i j; simp [assembleGo]
  | cons e rest ih =>
    intro i j
    cases j with
    | zero => simp [assembleGo]
    | succ j =>
      simp only [assembleGo, List.getElem?_cons_succ]
      rw [ih (i + 1) j]
      have : i + 1 + j = i + (j + 1) := by omega
      rw [this]

theorem renderGo_length (tts : List (Option JStr)) :
    ∀ (l : List SubtitleEntry) (i : Nat), (renderGo tts i l).length = l.length := by
  intro l
  induction l with
  | nil => intro i; rfl
  | cons e rest ih => intro i; simp [renderGo, ih]

theorem renderGo_getElem (tts : List (Option JStr)) :
    ∀ (l : List SubtitleEntry) (i j : Nat),
      (renderGo tts i l)[j]? =
        (l[j]?).map (fun e => { e with text := renderSlot (jsGet tts (i + j)) }) := by
  intro l
  induction l with
  | nil => intro i j; simp [renderGo]
  | cons e rest ih =>
    intro i j
    cases j with
    | zero => simp [renderGo]
    | succ j =>
      simp only [renderGo, List.getElem?_cons_succ]
      rw [ih (i + 1) j]
      have : i + 1 + j = i + (j + 1) := by omega
      rw [this]

theorem mem_assembleGo (ts : List JStr) :
    ∀ (l : List SubtitleEntry) (i : Nat) (e2 : SubtitleEntry),
      e2 ∈ assembleGo ts i l → ∃ e ∈ l, ∃ t?, e2 = assembleEntry e t? := by
  intro l
  induction l with
  | nil => intro i e2 h; simp [assembleGo] at h
  | cons e rest ih =>
    intro i e2 h
    simp only [assembleGo, List.mem_cons] at h
    rcases h with h | h
    · exact ⟨e, List.mem_cons_self e rest, ts[i]?, h⟩
    · obtain ⟨e0, he0, t?, ht⟩ := ih (i + 1) e2 h
      exact ⟨e0, List.mem_cons_of_mem e he0, t?, ht⟩

theorem fillBatch_nil : ∀ l : List JStr, fillBatch [] l = l := by
  intro l
  induction l with
  | nil => rfl
  | cons o rest ih => simp [fillBatch, ih]

theorem fillBatch_length : ∀ (ps l : List JStr), (fillBatch ps l).length = l.length := by
  intro ps l
  induction l generalizing ps with
  | nil => cases ps <;> rfl
  | cons o rest ih => cases ps with
    | nil => simp [fillBatch, ih]
    | cons p ps => simp [fillBatch, ih]

theorem fillBatch_getElem_ge :
    ∀ (ps l : List JStr) (j : Nat), ps.length ≤ j → (fillBatch ps l)[j]? = l[j]? := by
  intro ps l
  induction l generalizing ps with
  | nil => intro j _; cases ps <;> rfl
  | cons o rest ih =>
    intro j hj
    cases ps with
    | nil => rw [fillBatch_nil]
    | cons p ps =>
      cases j with
      | zero => simp at hj
      | succ j =>
        simp only [fillBatch, List.getElem?_cons_succ]
        exact ih ps j (by simpa using hj)

theorem chunksGo_flatten (n : Nat) (hn : 1 ≤ n) :
    ∀ (f : Nat) (l : List JStr), l.length ≤ f → (chunksGo n f l).flatten = l := by
  intro f
  induction f with
  | zero =>
    intro l hl
    have : l = [] := List.eq_nil_of_length_eq_zero (Nat.le_zero.mp hl)
    subst this; rfl
  | succ f ih =>
    intro l hl
    cases l with
    | nil => rfl
    | cons c t =>
      simp only [chunksGo, List.flatten_cons]
      rw [ih (List.drop n (c :: t))
        (by rw [List.length_drop]; simp only [List.length_cons] at hl ⊢; omega)]
      exact List.take_append_drop n (c :: t)

theorem chunks_flatten (n : Nat) (l : List JStr) : (chunks n l).flatten = l := by
  unfold chunks
  by_cases hn : n = 0
  · simp [hn]
  · rw [if_neg hn]
    exact chunksGo_flatten n (by omega) l.length l (le_refl _)

theorem multiGo_ok (tr : BatchTranslator) (hok : ∀ c, ∃ t, tr c = .ok t) :
    ∀ (bs : List (List JStr)) (k : Nat),
      ∃ out, multiGo tr (fun _ => false) k bs = .ok out ∧ out.length = bs.flatten.length := by
  intro bs
  induction bs with
  | nil => intro k; exact ⟨[], rfl, rfl⟩
  | cons b rest ih =>
    intro k
    obtain ⟨t, ht⟩ := hok (mkBatchContent b)
    obtain ⟨out, hout, hlen⟩ := ih (k + 1)
    refine ⟨fillBatch (splitOnSep MULTI_LINE_SEP t) b ++ out, ?_, ?_⟩
    · simp [multiGo, ht, hout, Except.map]
    · simp [fillBatch_length, hlen]

theorem serialGo_ok_units (tr : UnitTranslator) (texts : List JStr) (n : Nat)
    (e1 e2 : Bool) (ab : Nat → Bool) :
    ∀ (rest : List JStr) (i : Nat) (out : List JStr),
      serialGo tr texts n e1 e2 ab i rest = .ok out →
      ∀ (j : Nat) (hj : j < rest.length), ∃ v,
        tr (rest.get ⟨j, hj⟩) (mkUnitOptions texts (i + j) (rest.get ⟨j, hj⟩) n e1 e2) = .ok v
        ∧ out[j]? = some v := by
  intro rest
  induction rest with
  | nil => intro i out _ j hj; exact absurd hj (by simp)
  | cons t r ih =>
    intro i out h j hj
    rw [serialGo] at h
    by_cases hab : ab i = true
    · rw [if_pos hab] at h; cases h
    · rw [if_neg hab] at h
      cases htr : tr t (mkUnitOptions texts i t n e1 e2) with
      | error e => rw [htr] at h; cases h
      | ok v =>
        rw [htr] at h
        cases hrec : serialGo tr texts n e1 e2 ab (i + 1) r with
        | error e => rw [hrec] at h; cases h
        | ok out2 =>
          rw [hrec] at h
          simp only [Except.map] at h
          cases h
          cases j with
          | zero => exact ⟨v, by simpa using htr, by simp⟩
          | succ j =>
            obtain ⟨w, hw, hout⟩ := ih (i + 1) out2 hrec j (by simpa using hj)
            refine ⟨w, ?_, by simpa using hout⟩
            have : i + 1 + j = i + (j + 1) := by omega
            rw [this] at hw
            exact hw

theorem replaceFirst_ne_nil (p v : JStr) (c : Char) (t : JStr) (hv : v ≠ []) :
    replaceFirst p v (c :: t) ≠ [] := by
  rw [replaceFirst]
  by_cases h : p.isPrefixOf (c :: t) = true
  · rw [if_pos h]; simp [hv]
  · rw [if_neg h]; simp

theorem parseBlock_some (b : JStr) (e : SubtitleEntry) (h : parseBlock b = some e) :
    ∃ l0 l1 rest, splitChar '\n' (jsTrim b) = l0 :: l1 :: rest
      ∧ (parseIntJS (jsTrim l0)).isSome = true
      ∧ (searchTime (jsTrim l1)).isSome = true
      ∧ e.text = jsTrim (List.intercalate (js "\n") rest)
      ∧ e.text ≠ [] := by
  unfold parseBlock at h
  rcases hs : splitChar '\n' (jsTrim b) with _ | ⟨l0, ls⟩
  · rw [hs] at h; cases h
  · rcases ls with _ | ⟨l1, rest⟩
    · rw [hs] at h; cases h
    · rw [hs] at h
      dsimp only at h
      refine ⟨l0, l1, rest, rfl, ?_⟩
      cases hpi : parseIntJS (jsTrim l0) with
      | none => rw [hpi] at h; cases h
      | some idx =>
        rw [hpi] at h
        cases hst : searchTime (jsTrim l1) with
        | none => rw [hst] at h; cases h
        | some t12 =>
          rw [hst] at h
          obtain ⟨t1, t2⟩ := t12
          by_cases htxt : (jsTrim (List.intercalate (js "\n") rest)).isEmpty = true
          · simp only [htxt, if_pos] at h; cases h
          · simp only [htxt, if_neg, Bool.false_eq_true, if_false] at h
            cases h
            refine ⟨rfl, rfl, rfl, ?_⟩
            simpa [List.isEmpty_iff] using htxt

theorem parse_text_ne_nil (content : JStr) (e : SubtitleEntry)
    (h : e ∈ (SRTParser.parse content).entries) : e.text ≠ [] := by
  unfold SRTParser.parse at h
  simp only [List.mem_filterMap] at h
  obtain ⟨b, _, hb⟩ := h
  obtain ⟨_, _, _, _, _, _, _, hne⟩ := parseBlock_some b e hb
  exact hne

/-- C3.  For every job, in every execution mode and for every completion
order, the final document preserves the original positional order: the
assembled list has one output entry per input position, the entry at
position `j` is derived from the input entry at position `j` (its index and
timestamps unchanged) together with the translation resolved for position
`j`, and in the bounded-parallel scheduler a results slot `j` is only ever
written with the value determined by position `j` itself (`slotValue`),
never with a value depending on completion order. -/
theorem claim3_positional_order :
    (∀ (entries : List SubtitleEntry) (ts : List JStr),
        (assembleEntries entries ts).length = entries.length)
    ∧ (∀ (entries : List SubtitleEntry) (ts : List JStr) (j : Nat),
        (assembleEntries entries ts)[j]? =
          (entries[j]?).map (fun e => assembleEntry e ts[j]?))
    ∧ (∀ (entries : List SubtitleEntry) (ts : List JStr) (j : Nat)
        (e0 e2 : SubtitleEntry), entries[j]? = some e0 →
        (assembleEntries entries ts)[j]? = some e2 →
        e2.index = e0.index ∧ e2.startTime = e0.startTime ∧ e2.endTime = e0.endTime) 
    ∧ (∀ (P : Nat) (tr : IdxTranslator) (texts : List JStr) (s s2 : PState),
        PStep P tr texts s s2 → ∀ j, s2.results[j]? ≠ s.results[j]? →
        s2.results[j]? = some (some (slotValue tr texts j))) := by
  refine ⟨?_, ?_, ?_, ?_⟩
  · intro entries ts; exact assembleGo_length ts entries 0
  · intro entries ts j
    rw [assembleEntries]
    have := assembleGo_getElem ts entries 0 j
    have h0 : 0 + j = j := by omega
    rw [h0] at this
    exact this
  · intro entries ts j e0 e2 hin h2
    have hg := assembleGo_getElem ts entries 0 j
    have hz : 0 + j = j := by omega
    rw [hz] at hg
    rw [assembleEntries] at h2
    rw [hg, hin] at h2
    rw [show Option.map (fun e => assembleEntry e ts[j]?) (some e0) =
      some (assembleEntry e0 ts[j]?) from rfl] at h2
    cases h2
    simp [assembleEntry]
  · intro P tr texts s s2 hstep j hne
    cases hstep with
    | abort h1 => exact absurd rfl hne
    | observeCancel h1 h2 => exact absurd rfl hne
    | launch h1 h2 h3 h4 => exact absurd rfl hne
    | completeOk i v h1 h2 h3 htr =>
      by_cases hij : i = j
      · subst hij
        by_cases hlen : i < s.results.length
        · simp only [List.getElem?_set_self hlen]
          unfold slotValue
          rw [htr]
        · exact absurd (by simp [List.set_eq_of_length_le (Nat.le_of_not_lt hlen)]) hne
      · exact absurd (List.getElem?_set_ne hij) hne
    | completeFail i m h1 h2 h3 htr =>
      by_cases hij : i = j
      · subst hij
        by_cases hlen : i < s.results.length
        · simp only [List.getElem?_set_self hlen]
          unfold slotValue
          rw [htr]
        · exact absurd (by simp [List.set_eq_of_length_le (Nat.le_of_not_lt hlen)]) hne
      · exact absurd (List.getElem?_set_ne hij) hne
    | completeCancelErr i h1 h2 h3 htr => exact absurd rfl hne
    | completeAborted i h1 h2 h3 => exact absurd rfl hne
    | finish h1 h2 h3 h4 => exact absurd rfl hne

/-- Witness for C3 at concrete inputs: a two-entry document with translations
arriving "out of order" is assembled positionally, and a concrete
`completeOk` step writes slot 0 with the value determined by position 0. -/
theorem claim3_positional_order_witness :
    (assembleEntries
        [⟨1, js "00:00:01,000", js "00:00:02,000", js "a"⟩,
         ⟨2, js "00:00:03,000", js "00:00:04,000", js "b"⟩]
        [js "A", js "B"])[0]? =
      some ⟨1, js "00:00:01,000", js "00:00:02,000", js "A"⟩
    ∧ (PState.mk ((⟨[none], 0, [0], false, Phase.running⟩ : PState).results.set 0
          (some (js "V"))) 0 (List.erase [0] 0) false Phase.running).results[0]? =
        some (some (slotValue (fun _ => .ok (js "V")) [js "a"] 0)) := by
  constructor
  · have h := claim3_positional_order.2.1
      [⟨1, js "00:00:01,000", js "00:00:02,000", js "a"⟩,
       ⟨2, js "00:00:03,000", js "00:00:04,000", js "b"⟩]
      [js "A", js "B"] 0
    rw [h]
    decide
  · have h := claim3_positional_order.2.2.2 1 (fun _ => .ok (js "V")) [js "a"]
      ⟨[none], 0, [0], false, Phase.running⟩
      ⟨[none].set 0 (some (js "V")), 0, List.erase [0] 0, false, Phase.running⟩
      (PStep.completeOk _ 0 (js "V") rfl (by decide) rfl rfl) 0 (by decide)
    exact h

/-- C4 counterexample.  The claim says the orchestrator defensively clamps
`contextLines` to `[0, 3]` before any translation work uses the value; but
`translateSingleLine`/`translateSingleLineSerial` use the caller-supplied
value unclamped when building the per-unit context window, so with
`contextLines = 5` the options built for unit 5 of a six-entry job differ
from the options the clamped value `min 3 5 = 3` would produce (the context
block contains five preceding lines instead of three). -/
theorem claim4_cex :
    mkUnitOptions [js "t0", js "t1", js "t2", js "t3", js "t4", js "t5"] 5 (js "t5")
        5 false false ≠
      mkUnitOptions [js "t0", js "t1", js "t2", js "t3", js "t4", js "t5"] 5 (js "t5")
        (min 3 5) false false := by
  decide

/-- C4 as amended.  The orchestrator does defensively clamp
`multiLineBatchSize` to `[2, 10]` and `parallelCount` to `[2, 10]` (absent
or not greater than 1 meaning sequential), but it does not clamp
`contextLines`: the supplied value is used as-is when building context
windows (the `[0, 3]` clamp lives only in the HTTP route layer, outside the
orchestrator). -/
theorem claim4_clamping_amended :
    (∀ b : Nat, 2 ≤ clampedBatch b ∧ clampedBatch b ≤ 10)
    ∧ (∀ p? : Option Nat, effectiveParallelCount p? = 1
        ∨ 2 ≤ effectiveParallelCount p? ∧ effectiveParallelCount p? ≤ 10)
    ∧ effectiveParallelCount none = 1
    ∧ (∀ p : Nat, p ≤ 1 → effectiveParallelCount (some p) = 1)
    ∧ (∀ p : Nat, 2 ≤ p → effectiveParallelCount (some p) = min 10 p)
    ∧ (∃ texts i target n e1 e2,
        mkUnitOptions texts i target n e1 e2 ≠ mkUnitOptions texts i target (min 3 n) e1 e2) := by
  refine ⟨?_, ?_, rfl, ?_, ?_, ?_⟩
  · intro b; unfold clampedBatch; omega
  · intro p?
    cases p? with
    | none => left; rfl
    | some p =>
      simp only [effectiveParallelCount]
      by_cases hp : p > 1
      · right; rw [if_pos hp]; omega
      · left; rw [if_neg hp]
  · intro p hp
    simp only [effectiveParallelCount]
    rw [if_neg (by omega)]
  · intro p hp
    simp only [effectiveParallelCount]
    rw [if_pos (by omega)]
    omega
  · exact ⟨[js "t0", js "t1", js "t2", js "t3", js "t4", js "t5"], 5, js "t5", 5,
      false, false, by decide⟩

/-- Witness for the amended C4 at concrete inputs. -/
theorem claim4_clamping_amended_witness :
    (2 ≤ clampedBatch 0 ∧ clampedBatch 0 ≤ 10)
    ∧ effectiveParallelCount (some 1) = 1
    ∧ effectiveParallelCount (some 99) = min 10 99 := by
  refine ⟨claim4_clamping_amended.1 0, ?_, ?_⟩
  · exact claim4_clamping_amended.2.2.2.1 1 (by decide)
  · exact claim4_clamping_amended.2.2.2.2.1 99 (by decide)

/-- C6.  In multi-line mode, when splitting the returned string on the
sentinel yields fewer segments than the batch size, every missing position
receives its original untranslated source text (slot `j` of the batch is
unchanged whenever `j` is beyond the returned segments), no position is
dropped (the filled batch has exactly the batch's length), and an
under-return never raises: as long as the capability itself succeeds on
every batch, the whole multi-line job returns a result with one slot per
input position. -/
theorem claim6_underreturn_fallback :
    (∀ (parts batch : List JStr), (fillBatch parts batch).length = batch.length)
    ∧ (∀ (parts batch : List JStr) (j : Nat), parts.length ≤ j →
        (fillBatch parts batch)[j]? = batch[j]?)
    ∧ (∀ (tr : BatchTranslator) (texts : List JStr) (b : Nat),
        (∀ c, ∃ t, tr c = .ok t) →
        ∃ out, translateMultiLine tr texts b (fun _ => false) = .ok out
          ∧ out.length = texts.length) := by
  refine ⟨fillBatch_length, fillBatch_getElem_ge, ?_⟩
  intro tr texts b hok
  obtain ⟨out, hout, hlen⟩ := multiGo_ok tr hok (chunks (clampedBatch b) texts) 0
  refine ⟨out, hout, ?_⟩
  rw [hlen, chunks_flatten]

/-- Witness for C6 at the spec's concrete scenario: a capability returning
one fewer sentinel-delimited segment than requested leaves the last slot of
the batch equal to its original source text, and the job still succeeds. -/
theorem claim6_underreturn_fallback_witness :
    (fillBatch (splitOnSep MULTI_LINE_SEP (js "A")) [js "a", js "b"])[1]? =
      [js "a", js "b"][1]?
    ∧ ∃ out, translateMultiLine (fun _ => .ok (js "A")) [js "a", js "b"] 2
        (fun _ => false) = .ok out ∧ out.length = 2 := by
  constructor
  · exact claim6_underreturn_fallback.2.1 (splitOnSep MULTI_LINE_SEP (js "A"))
      [js "a", js "b"] 1 (by decide)
  · exact claim6_underreturn_fallback.2.2 (fun _ => .ok (js "A")) [js "a", js "b"] 2
      (fun c => ⟨js "A", rfl⟩)

/-- C9.  In the final assembly, a position whose translated text is absent or
trims to the empty string keeps its original source text, otherwise it gets
the trimmed translation; consequently every output entry of a job over a
parsed document has nonempty text, since `SRTParser.parse` only emits
entries with nonempty text. -/
theorem claim9_assembly_fallback :
    (∀ (e : SubtitleEntry), (assembleEntry e none).text = e.text)
    ∧ (∀ (e : SubtitleEntry) (t : JStr), jsTrim t = [] →
        (assembleEntry e (some t)).text = e.text)
    ∧ (∀ (e : SubtitleEntry) (t : JStr), jsTrim t ≠ [] →
        (assembleEntry e (some t)).text = jsTrim t)
    ∧ (∀ (entries : List SubtitleEntry) (ts : List JStr),
        (∀ e ∈ entries, e.text ≠ []) →
        ∀ e2 ∈ assembleEntries entries ts, e2.text ≠ [])
    ∧ (∀ (content : JStr) (ts : List JStr),
        ∀ e2 ∈ assembleEntries (SRTParser.parse content).entries ts, e2.text ≠ []) := by
  have hfall : ∀ (entries : List SubtitleEntry) (ts : List JStr),
      (∀ e ∈ entries, e.text ≠ []) →
      ∀ e2 ∈ assembleEntries entries ts, e2.text ≠ [] := by
    intro entries ts hne e2 h2
    obtain ⟨e, he, t?, ht⟩ := mem_assembleGo ts entries 0 e2 h2
    subst ht
    cases t? with
    | none => exact hne e he
    | some t =>
      unfold assembleEntry
      dsimp only
      by_cases h : (jsTrim t).isEmpty = true
      · rw [if_pos h]; exact hne e he
      · rw [if_neg h]; simpa [List.isEmpty_iff] using h
  refine ⟨fun e => rfl, ?_, ?_, hfall, ?_⟩
  · intro e t ht
    unfold assembleEntry
    simp [ht]
  · intro e t ht
    unfold assembleEntry
    simp [List.isEmpty_iff, ht]
  · intro content ts e2 h2
    exact hfall _ ts (fun e he => parse_text_ne_nil content e he) e2 h2

/-- Witness for C9 at concrete inputs: a whitespace-only translation keeps
the original text, and assembling a parsed document yields nonempty texts. -/
theorem claim9_assembly_fallback_witness :
    (assembleEntry ⟨1, js "00:00:01,000", js "00:00:02,000", js "a"⟩ (some (js "  "))).text =
      js "a"
    ∧ ∀ e2 ∈ assembleEntries
        (SRTParser.parse (js "1\n00:00:01,000 --> 00:00:02,000\nHello")).entries
        [js " "], e2.text ≠ [] := by
  constructor
  · exact claim9_assembly_fallback.2.1 ⟨1, js "00:00:01,000", js "00:00:02,000", js "a"⟩
      (js "  ") (by decide)
  · exact claim9_assembly_fallback.2.2.2.2
      (js "1\n00:00:01,000 --> 00:00:02,000\nHello") [js " "]

/-- C10.  In every progress snapshot, a positional slot whose completed
translation is empty or whitespace-only is rendered with the reserved
placeholder, which is exactly how a not-yet-completed (undefined) slot is
rendered — the two are indistinguishable in the snapshot. -/
theorem claim10_placeholder_rendering :
    (∀ s : JStr, jsTrim s = [] →
        renderSlot (some s) = PLACEHOLDER ∧ renderSlot (some s) = renderSlot none)
    ∧ (∀ (entries : List SubtitleEntry) (tts : List (Option JStr)) (i : Nat)
        (e0 : SubtitleEntry) (st : JStr),
        entries[i]? = some e0 → jsGet tts i = some st → jsTrim st = [] →
        (wrappedEntries entries tts)[i]? = some { e0 with text := PLACEHOLDER }) := by
  constructor
  · intro st hst
    constructor
    · unfold renderSlot
      simp [hst]
    · unfold renderSlot
      simp [hst]
  · intro entries tts i e0 st hin hget htrim
    rw [wrappedEntries]
    rw [renderGo_getElem tts entries 0 i]
    have hz : 0 + i = i := by omega
    rw [hz, hin]
    have : renderSlot (jsGet tts i) = PLACEHOLDER := by
      rw [hget]
      unfold renderSlot
      simp [htrim]
    rw [this]
    rfl

/-- Witness for C10 at concrete inputs: a slot completed with a
whitespace-only translation renders exactly like the undefined slot next to
it. -/
theorem claim10_placeholder_rendering_witness :
    (renderSlot (some (js " ")) = PLACEHOLDER ∧ renderSlot (some (js " ")) = renderSlot none)
    ∧ (wrappedEntries
        [⟨1, js "00:00:01,000", js "00:00:02,000", js "a"⟩]
        [some (js " ")])[0]? =
      some ⟨1, js "00:00:01,000", js "00:00:02,000", PLACEHOLDER⟩ := by
  constructor
  · exact claim10_placeholder_rendering.1 (js " ") (by decide)
  · exact claim10_placeholder_rendering.2
      [⟨1, js "00:00:01,000", js "00:00:02,000", js "a"⟩]
      [some (js " ")] 0 ⟨1, js "00:00:01,000", js "00:00:02,000", js "a"⟩ (js " ")
      (by decide) (by decide) (by decide)

/-- C7.  When coherence mode is enabled, a context block was built, a
nonempty coherence template is configured and the active main template does
not literally contain the token `{coherence_prompt}`, the resolved coherence
content is appended to the end of the rendered prompt rather than dropped;
and the fallback exists only for the coherence placeholder: with coherence
mode off the output is exactly the resolution chain, even when the
analogous conditions hold for the context placeholder. -/
theorem claim7_coherence_append :
    (∀ (cfg : LLMConfig) (text sl tl : JStr) (o : TransOpts) (ctx cp : JStr),
        o.enableCoherence = true → o.context = some ctx → ctx ≠ [] →
        cfg.coherencePrompt = some cp → cp ≠ [] →
        containsSub tokCoherence cfg.prompt = false →
        coherenceResolved cfg (some o) = replaceFirst (js "{context}") ctx cp
        ∧ buildPrompt cfg text sl tl (some o) =
            resolveChain cfg.prompt (customResolved cfg) (contextResolved cfg (some o))
              (replaceFirst (js "{context}") ctx cp) text sl tl
            ++ js "\n\n" ++ replaceFirst (js "{context}") ctx cp)
    ∧ (∀ (cfg : LLMConfig) (text sl tl : JStr) (o : TransOpts),
        o.enableCoherence = false →
        buildPrompt cfg text sl tl (some o) =
          resolveChain cfg.prompt (customResolved cfg) (contextResolved cfg (some o))
            (coherenceResolved cfg (some o)) text sl tl) := by
  constructor
  · intro cfg text sl tl o ctx cp hcoh hctx hctxne hcp hcpne hnotok
    obtain ⟨pr, ctxp?, cohp?, custp?⟩ := cfg
    obtain ⟨octx, oec, ooc⟩ := o
    simp only at hcoh hctx hcp hnotok
    subst hcoh hctx hcp
    have hres : coherenceResolved ⟨pr, ctxp?, some cp, custp?⟩
        (some ⟨some ctx, oec, true⟩) = replaceFirst (js "{context}") ctx cp := by
      simp [coherenceResolved, truthy, List.isEmpty_iff, hctxne, hcpne]
    refine ⟨hres, ?_⟩
    have hne : replaceFirst (js "{context}") ctx cp ≠ [] := by
      cases cp with
      | nil => exact absurd rfl hcpne
      | cons c t => exact replaceFirst_ne_nil _ _ c t hctxne
    unfold buildPrompt
    rw [hres]
    rw [if_pos ?side]
    case side =>
      simp only [Option.map_some, Option.getD_some, hnotok]
      simp [List.isEmpty_iff, hne]
  · intro cfg text sl tl o hcoh
    unfold buildPrompt
    rw [if_neg ?side2]
    case side2 =>
      simp [hcoh]

/-- Witness for C7 at concrete inputs: a main template without the coherence
token gets the resolved coherence content appended, and with coherence off
nothing is appended even though a context template is configured. -/
theorem claim7_coherence_append_witness :
    (coherenceResolved ⟨js "T:{content}", some (js "cx:{context}"), some (js "co:{context}"),
        none⟩ (some ⟨some (js "C"), false, true⟩) =
      replaceFirst (js "{context}") (js "C") (js "co:{context}")
    ∧ buildPrompt ⟨js "T:{content}", some (js "cx:{context}"), some (js "co:{context}"), none⟩
        (js "hi") (js "en") (js "zh") (some ⟨some (js "C"), false, true⟩) =
        resolveChain (js "T:{content}")
          (customResolved ⟨js "T:{content}", some (js "cx:{context}"),
            some (js "co:{context}"), none⟩)
          (contextResolved ⟨js "T:{content}", some (js "cx:{context}"),
            some (js "co:{context}"), none⟩ (some ⟨some (js "C"), false, true⟩))
          (replaceFirst (js "{context}") (js "C") (js "co:{context}"))
          (js "hi") (js "en") (js "zh")
        ++ js "\n\n" ++ replaceFirst (js "{context}") (js "C") (js "co:{context}"))
    ∧ buildPrompt ⟨js "T:{content}", some (js "cx:{context}"), some (js "co:{context}"), none⟩
        (js "hi") (js "en") (js "zh") (some ⟨some (js "C"), true, false⟩) =
        resolveChain (js "T:{content}")
          (customResolved ⟨js "T:{content}", some (js "cx:{context}"),
            some (js "co:{context}"), none⟩)
          (contextResolved ⟨js "T:{content}", some (js "cx:{context}"),
            some (js "co:{context}"), none⟩ (some ⟨some (js "C"), true, false⟩))
          (coherenceResolved ⟨js "T:{content}", some (js "cx:{context}"),
            some (js "co:{context}"), none⟩ (some ⟨some (js "C"), true, false⟩))
          (js "hi") (js "en") (js "zh") := by
  refine ⟨?_, ?_⟩
  · exact claim7_coherence_append.1
      ⟨js "T:{content}", some (js "cx:{context}"), some (js "co:{context}"), none⟩
      (js "hi") (js "en") (js "zh") ⟨some (js "C"), false, true⟩ (js "C")
      (js "co:{context}") rfl rfl (by decide) rfl (by decide) (by decide)
  · exact claim7_coherence_append.2
      ⟨js "T:{content}", some (js "cx:{context}"), some (js "co:{context}"), none⟩
      (js "hi") (js "en") (js "zh") ⟨some (js "C"), true, false⟩ rfl

/-- C1 counterexample.  The claim says that in single-line sequential mode a
per-unit translator failure is caught, the original text substituted and
the job continued, with no exception escaping; but
`translateSingleLineSerial` has no try/catch around the translator call, so
with four entries and a capability failing on index 2 only, the failure
escapes the whole job as an error instead of producing a document with
indices 0, 1, 3 translated and index 2 untouched. -/
theorem claim1_cex :
    translateSingleLineSerial c1Tr [js "a", js "b", js "c", js "d"] 0 false false
        (fun _ => false) =
      .error (.failure (js "boom")) := by
  rfl

/-- C1 as amended.  The per-unit soft-fail policy exists only on the
bounded-parallel path: there, a unit failing with a non-cancellation error
is caught, its positional slot receives the original source text and the
job keeps running, with no other slot touched.  On the sequential path a
translator failure propagates: the job returns a result only if every
unit's translator call succeeded, and each successful unit's slot holds the
translator's value (never a substituted original). -/
theorem claim1_softfail_amended :
    (∀ (tr : UnitTranslator) (texts : List JStr) (n : Nat) (e1 e2 : Bool)
        (ab : Nat → Bool) (out : List JStr),
        translateSingleLineSerial tr texts n e1 e2 ab = .ok out →
        ∀ (j : Nat) (hj : j < texts.length), ∃ v,
          tr (texts.get ⟨j, hj⟩) (mkUnitOptions texts j (texts.get ⟨j, hj⟩) n e1 e2) = .ok v
          ∧ out[j]? = some v)
    ∧ (∀ (P : Nat) (tr : IdxTranslator) (texts : List JStr) (s : PState)
        (i : Nat) (m : JStr),
        s.phase = Phase.running → i ∈ s.active → s.aborted = false →
        tr i = .error (.failure m) → i < s.results.length →
        ∃ s2, PStep P tr texts s s2 ∧ s2.phase = Phase.running
          ∧ s2.aborted = false
          ∧ s2.results[i]? = some (some (texts.getD i []))
          ∧ ∀ j, j ≠ i → s2.results[j]? = s.results[j]?) := by
  constructor
  · intro tr texts n e1 e2 ab out h j hj
    have := serialGo_ok_units tr texts n e1 e2 ab texts 0 out h j hj
    simpa using this
  · intro P tr texts s i m h1 h2 h3 htr hlen
    refine ⟨_, PStep.completeFail s i m h1 h2 h3 htr, h1, h3, ?_, ?_⟩
    · exact List.getElem?_set_self hlen
    · intro j hj
      exact List.getElem?_set_ne (fun h => hj h.symm)

/-- Witness for the amended C1 at concrete inputs: an all-successful serial
job has every unit's translator call succeed, and a concrete failed
parallel unit deposits its original text in its own slot while the job
stays running. -/
theorem claim1_softfail_amended_witness :
    (∃ v, c1wTr ([js "a"].get ⟨0, by decide⟩)
        (mkUnitOptions [js "a"] 0 ([js "a"].get ⟨0, by decide⟩) 0 false false) = .ok v
      ∧ (js "Xa" :: ([] : List JStr))[0]? = some v)
    ∧ ∃ s2, PStep 2 c1wFailTr [js "a"]
          ⟨[none], 1, [0], false, Phase.running⟩ s2
        ∧ s2.phase = Phase.running ∧ s2.aborted = false
        ∧ s2.results[0]? = some (some ([js "a"].getD 0 []))
        ∧ ∀ j, j ≠ 0 → s2.results[j]? = (⟨[none], 1, [0], false, Phase.running⟩ : PState).results[j]? := by
  constructor
  · exact claim1_softfail_amended.1
      c1wTr [js "a"] 0 false false (fun _ => false)
      [js "Xa"] (by rfl) 0 (by decide)
  · exact claim1_softfail_amended.2 2 c1wFailTr [js "a"]
      ⟨[none], 1, [0], false, Phase.running⟩ 0 (js "boom") rfl (by decide) rfl rfl
      (by decide)

/-- C8.  `SRTParser.parse` emits an entry for a block only when the block
(after trimming and splitting into lines) has at least two lines, the first
line is accepted by `parseInt`, the second line contains the two-timestamp
pattern, and the remaining lines join and trim to a nonempty string; in
particular every entry of every parsed document has nonempty text, and a
block with a valid index line and valid timestamps but no text lines yields
no entry. -/
theorem claim8_parse_entry_conditions :
    (∀ (content : JStr) (e : SubtitleEntry),
        e ∈ (SRTParser.parse content).entries → e.text ≠ [])
    ∧ (∀ (block : JStr) (e : SubtitleEntry), parseBlock block = some e →
        ∃ l0 l1 rest, splitChar '\n' (jsTrim block) = l0 :: l1 :: rest
          ∧ (parseIntJS (jsTrim l0)).isSome = true
          ∧ (searchTime (jsTrim l1)).isSome = true
          ∧ e.text = jsTrim (List.intercalate (js "\n") rest)
          ∧ e.text ≠ [])
    ∧ parseBlock (js "1\n00:00:01,000 --> 00:00:02,000") = none := by
  exact ⟨parse_text_ne_nil, parseBlock_some, by decide⟩

/-- Witness for C8 at a concrete document: the parsed entry of a well-formed
block has nonempty text and satisfies the block conditions. -/
theorem claim8_parse_entry_conditions_witness :
    (⟨1, js "00:00:01,000", js "00:00:02,000", js "Hello"⟩ : SubtitleEntry).text ≠ []
    ∧ ∃ l0 l1 rest,
        splitChar '\n' (jsTrim (js "1\n00:00:01,000 --> 00:00:02,000\nHello")) =
          l0 :: l1 :: rest
        ∧ (parseIntJS (jsTrim l0)).isSome = true
        ∧ (searchTime (jsTrim l1)).isSome = true
        ∧ (⟨1, js "00:00:01,000", js "00:00:02,000", js "Hello"⟩ : SubtitleEntry).text =
            jsTrim (List.intercalate (js "\n") rest)
        ∧ (⟨1, js "00:00:01,000", js "00:00:02,000", js "Hello"⟩ : SubtitleEntry).text ≠ [] := by
  constructor
  · exact claim8_parse_entry_conditions.1
      (js "1\n00:00:01,000 --> 00:00:02,000\nHello")
      ⟨1, js "00:00:01,000", js "00:00:02,000", js "Hello"⟩ (by decide)
  · exact claim8_parse_entry_conditions.2.1
      (js "1\n00:00:01,000 --> 00:00:02,000\nHello")
      ⟨1, js "00:00:01,000", js "00:00:02,000", js "Hello"⟩ (by decide)

theorem pstep_aborted {P : Nat} {tr : IdxTranslator} {texts : List JStr}
    {s s2 : PState} (hstep : PStep P tr texts s s2) (hab : s.aborted = true) :
    s2.aborted = true ∧ s2.nextIndex = s.nextIndex ∧ s2.results = s.results
    ∧ (s.phase ≠ Phase.finished → s2.phase ≠ Phase.finished) := by
  cases hstep with
  | abort h1 => exact ⟨rfl, rfl, rfl, fun h => h⟩
  | observeCancel h1 h2 => exact ⟨hab, rfl, rfl, fun _ => by simp⟩
  | launch h1 h2 h3 h4 => rw [hab] at h2; cases h2
  | completeOk i v h1 h2 h3 htr => rw [hab] at h3; cases h3
  | completeFail i m h1 h2 h3 htr => rw [hab] at h3; cases h3
  | completeCancelErr i h1 h2 h3 htr => rw [hab] at h3; cases h3
  | completeAborted i h1 h2 h3 => exact ⟨hab, rfl, rfl, fun _ => by simp⟩
  | finish h1 h2 h3 h4 => rw [hab] at h2; cases h2

theorem pinv_step {P : Nat} {tr : IdxTranslator} {texts : List JStr}
    {s s2 : PState} (hstep : PStep P tr texts s s2) (hinv : PInv texts s) :
    PInv texts s2 := by
  obtain ⟨hlen, hlt, hnd, hslots, hun⟩ := hinv
  cases hstep with
  | abort h1 => exact ⟨hlen, hlt, hnd, hslots, hun⟩
  | observeCancel h1 h2 => exact ⟨hlen, hlt, hnd, hslots, hun⟩
  | launch h1 h2 h3 h4 =>
    refine ⟨hlen, ?_, ?_, ?_, ?_⟩
    · intro j hj
      rcases List.mem_cons.mp hj with h | h
      · subst h; show s.nextIndex < s.nextIndex + 1; omega
      · exact Nat.lt_succ_of_lt (hlt j h)
    · refine List.nodup_cons.mpr ⟨?_, hnd⟩
      intro hmem
      exact absurd (hlt _ hmem) (by omega)
    · intro j hj
      rcases List.mem_cons.mp hj with h | h
      · subst h; exact hun _ (le_refl _) (by omega)
      · exact hslots j h
    · intro j hj1 hj2
      dsimp only at hj1 hj2
      exact hun j (by omega) hj2
  | completeOk i v h1 h2 h3 htr =>
    refine ⟨by simp [hlen], ?_, hnd.erase i, ?_, ?_⟩
    · intro j hj; exact hlt j (List.mem_of_mem_erase hj)
    · intro j hj
      obtain ⟨hne, hmem⟩ := (hnd.mem_erase_iff).mp hj
      rw [List.getElem?_set_ne (fun h => hne h.symm)]
      exact hslots j hmem
    · intro j hj1 hj2
      dsimp only at hj1 hj2 ⊢
      rw [List.length_set] at hj2
      have hi : i < s.nextIndex := hlt i h2
      rw [List.getElem?_set_ne (by omega)]
      exact hun j hj1 hj2
  | completeFail i m h1 h2 h3 htr =>
    refine ⟨by simp [hlen], ?_, hnd.erase i, ?_, ?_⟩
    · intro j hj; exact hlt j (List.mem_of_mem_erase hj)
    · intro j hj
      obtain ⟨hne, hmem⟩ := (hnd.mem_erase_iff).mp hj
      rw [List.getElem?_set_ne (fun h => hne h.symm)]
      exact hslots j hmem
    · intro j hj1 hj2
      dsimp only at hj1 hj2 ⊢
      rw [List.length_set] at hj2
      have hi : i < s.nextIndex := hlt i h2
      rw [List.getElem?_set_ne (by omega)]
      exact hun j hj1 hj2
  | completeCancelErr i h1 h2 h3 htr =>
    refine ⟨hlen, ?_, hnd.erase i, ?_, hun⟩
    · intro j hj; exact hlt j (List.mem_of_mem_erase hj)
    · intro j hj; exact hslots j (List.mem_of_mem_erase hj)
  | completeAborted i h1 h2 h3 =>
    refine ⟨hlen, ?_, hnd.erase i, ?_, hun⟩
    · intro j hj; exact hlt j (List.mem_of_mem_erase hj)
    · intro j hj; exact hslots j (List.mem_of_mem_erase hj)
  | finish h1 h2 h3 h4 => exact ⟨hlen, hlt, hnd, hslots, hun⟩

theorem pstep_mono {P : Nat} {tr : IdxTranslator} {texts : List JStr}
    {s s2 : PState} (hstep : PStep P tr texts s s2) (hinv : PInv texts s) :
    ∀ (i : Nat) (v : JStr), s.results[i]? = some (some v) → s2.results[i]? = some (some v) := by
  obtain ⟨hlen, hlt, hnd, hslots, hun⟩ := hinv
  intro j v hv
  cases hstep with
  | abort h1 => exact hv
  | observeCancel h1 h2 => exact hv
  | launch h1 h2 h3 h4 => exact hv
  | completeOk i w h1 h2 h3 htr =>
    by_cases hij : i = j
    · subst hij
      rw [hslots i h2] at hv
      cases hv
    · rw [List.getElem?_set_ne hij]
      exact hv
  | completeFail i m h1 h2 h3 htr =>
    by_cases hij : i = j
    · subst hij
      rw [hslots i h2] at hv
      cases hv
    · rw [List.getElem?_set_ne hij]
      exact hv
  | completeCancelErr i h1 h2 h3 htr => exact hv
  | completeAborted i h1 h2 h3 => exact hv
  | finish h1 h2 h3 h4 => exact hv

theorem renderSlot_resolved {l : List (Option JStr)} {i : Nat}
    (h : renderSlot (jsGet l i) ≠ PLACEHOLDER) :
    ∃ v, l[i]? = some (some v) ∧ (jsTrim v).isEmpty = false := by
  cases hl : l[i]? with
  | none => exact absurd (by simp [jsGet, hl, renderSlot]) h
  | some o =>
    cases o with
    | none => exact absurd (by simp [jsGet, hl, renderSlot]) h
    | some v =>
      refine ⟨v, rfl, ?_⟩
      by_cases he : (jsTrim v).isEmpty = true
      · exact absurd (by simp [jsGet, hl, renderSlot, he]) h
      · simpa using he

/-- C2.  Safety of the single-line bounded-parallel scheduler under every
schedule of completions.  The cancellation flag is polled before admission
and after completion (this is built into the step rules, whose launch and
complete rules carry the corresponding flag guards); once the flag is true,
every further step leaves the admission counter and the results slot array
unchanged (no further unit is started and no completing unit propagates
its result), the flag itself stays set and the job can never reach the
`finished` phase — only `cancelled`.  Moreover the scheduler invariant
holds initially and is preserved, a resolved slot is never overwritten, and
consequently in the sequence of emitted progress snapshots no positional
slot ever reverts from a resolved translation back to the placeholder. -/
theorem claim2_parallel_cancellation :
    (∀ (P : Nat) (tr : IdxTranslator) (texts : List JStr) (s s2 : PState),
        PStep P tr texts s s2 → s.aborted = true →
        s2.aborted = true ∧ s2.nextIndex = s.nextIndex ∧ s2.results = s.results
        ∧ (s.phase ≠ Phase.finished → s2.phase ≠ Phase.finished))
    ∧ (∀ (P : Nat) (tr : IdxTranslator) (texts : List JStr) (s s2 : PState),
        PStepStar P tr texts s s2 → s.aborted = true → s.phase ≠ Phase.finished →
        s2.aborted = true ∧ s2.nextIndex = s.nextIndex ∧ s2.results = s.results
        ∧ s2.phase ≠ Phase.finished)
    ∧ (∀ texts : List JStr, PInv texts (initPState texts))
    ∧ (∀ (P : Nat) (tr : IdxTranslator) (texts : List JStr) (s s2 : PState),
        PStepStar P tr texts s s2 → PInv texts s →
        PInv texts s2 ∧ ∀ (i : Nat) (v : JStr),
          s.results[i]? = some (some v) → s2.results[i]? = some (some v))
    ∧ (∀ (P : Nat) (tr : IdxTranslator) (texts : List JStr) (s s2 : PState),
        PStep P tr texts s s2 → PInv texts s → ∀ i : Nat,
        renderSlot (jsGet s.results i) ≠ PLACEHOLDER →
        renderSlot (jsGet s2.results i) = renderSlot (jsGet s.results i)) := by
  refine ⟨fun P tr texts s s2 h hab => pstep_aborted h hab, ?_, ?_, ?_, ?_⟩
  · intro P tr texts s s2 hstar hab hfin
    induction hstar with
    | refl => exact ⟨hab, rfl, rfl, hfin⟩
    | tail hstar1 hstep ih =>
      obtain ⟨ih1, ih2, ih3, ih4⟩ := ih
      obtain ⟨a1, a2, a3, a4⟩ := pstep_aborted hstep ih1
      exact ⟨a1, a2.trans ih2, a3.trans ih3, a4 ih4⟩
  · intro texts
    refine ⟨by simp [initPState], ?_, ?_, ?_, ?_⟩
    · intro j hj; cases hj
    · exact List.nodup_nil
    · intro j hj; cases hj
    · intro j hj1 hj2
      simp only [initPState] at hj2 ⊢
      rw [List.getElem?_replicate, if_pos (by simpa using hj2)]
  · intro P tr texts s s2 hstar hinv
    induction hstar with
    | refl => exact ⟨hinv, fun i v h => h⟩
    | tail hstar1 hstep ih =>
      obtain ⟨ihinv, ihmono⟩ := ih
      exact ⟨pinv_step hstep ihinv,
        fun i v h => pstep_mono hstep ihinv i v (ihmono i v h)⟩
  · intro P tr texts s s2 hstep hinv i hres
    obtain ⟨v, hv, hne⟩ := renderSlot_resolved hres
    have h2 := pstep_mono hstep hinv i v hv
    simp [jsGet, hv, h2]

/-- Witness for C2 at concrete states: a one-entry job whose flag is already
set takes an observe-cancel step that starts nothing, changes no slot and
ends cancelled; the initial state of that job satisfies the invariant; and
from the initial state the empty schedule preserves the invariant. -/
theorem claim2_parallel_cancellation_witness :
    ((⟨[some (js "v")], 1, [], true, Phase.cancelled⟩ : PState).aborted = true
      ∧ (⟨[some (js "v")], 1, [], true, Phase.cancelled⟩ : PState).nextIndex =
          (⟨[some (js "v")], 1, [], true, Phase.running⟩ : PState).nextIndex
      ∧ (⟨[some (js "v")], 1, [], true, Phase.cancelled⟩ : PState).results =
          (⟨[some (js "v")], 1, [], true, Phase.running⟩ : PState).results
      ∧ (⟨[some (js "v")], 1, [], true, Phase.cancelled⟩ : PState).phase ≠ Phase.finished)
    ∧ PInv [js "a"] (initPState [js "a"]) := by
  constructor
  · have h := claim2_parallel_cancellation.2.1 2 c1wFailTr [js "a"]
      ⟨[some (js "v")], 1, [], true, Phase.running⟩
      ⟨[some (js "v")], 1, [], true, Phase.cancelled⟩
      (Relation.ReflTransGen.single
        (PStep.observeCancel (⟨[some (js "v")], 1, [], true, Phase.running⟩ : PState) rfl rfl))
      rfl (by simp)
    exact h
  · exact claim2_parallel_cancellation.2.2.1 [js "a"]

theorem tokens_ne_empty : ∀ p ∈ TOKENS, p.isEmpty = false := by decide

theorem tokens_shape :
    ∀ p ∈ TOKENS, p.head? = some '{' ∧ braceFree p.tail = true := by decide

theorem tokens_not_pref :
    ∀ p ∈ TOKENS, ∀ q ∈ TOKENS, p ≠ q → p.isPrefixOf q = false := by decide

theorem tokens_brace : ∀ p ∈ TOKENS, '{' ∈ p := by decide

theorem mem_of_isPrefixOf (a : Char) :
    ∀ (p s : JStr), p.isPrefixOf s = true → a ∈ p → a ∈ s := by
  intro p
  induction p with
  | nil => intro s _ ha; cases ha
  | cons x p ih =>
    intro s hpre ha
    cases s with
    | nil => simp [List.isPrefixOf] at hpre
    | cons y t =>
      simp only [List.isPrefixOf, Bool.and_eq_true, beq_iff_eq] at hpre
      obtain ⟨hxy, hrec⟩ := hpre
      rcases List.mem_cons.mp ha with h | h
      · subst h; rw [hxy]; exact List.mem_cons_self y t
      · exact List.mem_cons_of_mem _ (ih t hrec h)

theorem braceFree_not_mem {s : JStr} (hs : braceFree s = true) : '{' ∉ s := by
  intro hmem
  have := List.all_eq_true.mp hs _ hmem
  simp at this

theorem replaceAllLit_append_left (p v : JStr) (hp : p.head? = some '{') :
    ∀ (a b : JStr), braceFree a = true →
      replaceAllLit p v (a ++ b) = a ++ replaceAllLit p v b := by
  cases p with
  | nil => simp [List.head?] at hp
  | cons pc pt =>
    have hpc : pc = '{' := by simpa [List.head?] using hp
    subst hpc
    intro a
    induction a with
    | nil => intro b _; rfl
    | cons c a ih =>
      intro b hall
      have hc : c ≠ '{' := by
        have := List.all_eq_true.mp hall c (List.mem_cons_self c a)
        simpa using this
      have hrest : braceFree a = true := by
        apply List.all_eq_true.mpr
        intro x hx
        exact List.all_eq_true.mp hall x (List.mem_cons_of_mem c hx)
      have hnp : ¬ (('{' :: pt).isPrefixOf (c :: (a ++ b))) = true := by
        simp only [List.isPrefixOf, Bool.and_eq_true, beq_iff_eq]
        intro hcontra
        exact hc hcontra.1.symm
      rw [List.cons_append, replaceAllLit_cons_neg _ _ _ _ (by simp) hnp, ih b hrest,
        List.cons_append]

theorem isPrefixOf_append_self : ∀ (p b : JStr), p.isPrefixOf (p ++ b) = true := by
  intro p
  induction p with
  | nil => intro b; simp [List.isPrefixOf]
  | cons c p ih => intro b; simp [List.isPrefixOf, ih]

theorem not_isPrefixOf_append :
    ∀ (q p X : JStr), p.isPrefixOf q = false → q.isPrefixOf p = false →
      p.isPrefixOf (q ++ X) = false := by
  intro q
  induction q with
  | nil => intro p X _ h2; simp [List.isPrefixOf] at h2
  | cons b q ih =>
    intro p X h1 h2
    cases p with
    | nil => simp [List.isPrefixOf] at h1
    | cons a p =>
      simp only [List.cons_append, List.isPrefixOf] at h1 h2 ⊢
      by_cases hab : a = b
      · subst hab
        simp only [beq_self_eq_true, Bool.true_and] at h1 h2 ⊢
        exact ih p X h1 h2
      · simp [hab]

theorem replaceAllLit_of_not_contains (p v : JStr) :
    ∀ s, containsSub p s = false → replaceAllLit p v s = s := by
  intro s
  induction s with
  | nil => intro _; exact replaceAllLit_nil p v
  | cons c t ih =>
    intro h
    rw [containsSub] at h
    obtain ⟨h1, h2⟩ := Bool.or_eq_false_iff.mp h
    have hp : ¬ p.isEmpty = true := by
      cases p with
      | nil => simp [List.isPrefixOf] at h1
      | cons x xs => simp
    rw [replaceAllLit_cons_neg _ _ _ _ hp (by simp [h1]), ih h2]

theorem not_contains_of_braceFree (p s : JStr) (hbp : '{' ∈ p)
    (hs : braceFree s = true) : containsSub p s = false := by
  induction s with
  | nil =>
    cases p with
    | nil => cases hbp
    | cons x xs => rfl
  | cons c t ih =>
    have hc : c ≠ '{' := by
      have := List.all_eq_true.mp hs c (List.mem_cons_self c t)
      simpa using this
    have hrest : braceFree t = true := by
      apply List.all_eq_true.mpr
      intro x hx
      exact List.all_eq_true.mp hs x (List.mem_cons_of_mem c hx)
    rw [containsSub]
    apply Bool.or_eq_false_iff.mpr
    constructor
    · cases hpre : p.isPrefixOf (c :: t) with
      | false => rfl
      | true =>
        exfalso
        have hmem := mem_of_isPrefixOf '{' p (c :: t) hpre hbp
        rcases List.mem_cons.mp hmem with h | h
        · exact hc h.symm
        · exact braceFree_not_mem hrest h
    · exact ih hrest

theorem replaceAllLit_flat (p v : JStr) (hp : p ∈ TOKENS) (_hv : braceFree v = true) :
    ∀ ps, GoodPieces ps → replaceAllLit p v (flatP ps) = flatP (substTok p v ps) := by
  have hph : p.head? = some '{' := (tokens_shape p hp).1
  have hpe : ¬ p.isEmpty = true := by rw [tokens_ne_empty p hp]; simp
  intro ps
  induction ps with
  | nil => intro _; exact replaceAllLit_nil p v
  | cons pc r ih =>
    intro hgood
    have hpc := hgood pc (List.mem_cons_self pc r)
    have hr : GoodPieces r := fun q hq => hgood q (List.mem_cons_of_mem _ hq)
    cases pc with
    | lit s =>
      have hbf : braceFree s = true := hpc
      show replaceAllLit p v (s ++ flatP r) = flatP (PPiece.lit s :: substTok p v r)
      rw [replaceAllLit_append_left p v hph s (flatP r) hbf, ih hr]
      rfl
    | tok t =>
      have ht : t ∈ TOKENS := by simpa [pieceOK] using hpc
      by_cases htp : t = p
      · subst htp
        show replaceAllLit t v (t ++ flatP r) = flatP (substPiece t v (PPiece.tok t) :: substTok t v r)
        rw [show substPiece t v (PPiece.tok t) = PPiece.lit v by simp [substPiece]]
        cases t with
        | nil => simp at hph
        | cons c ct =>
          rw [List.cons_append,
            replaceAllLit_cons_pos _ _ _ _ hpe
              (by rw [← List.cons_append]; exact isPrefixOf_append_self (c :: ct) (flatP r))]
          have hdrop : (ct ++ flatP r).drop ((c :: ct).length - 1) = flatP r := by
            simp only [List.length_cons, Nat.add_sub_cancel]
            exact List.drop_left ct (flatP r)
          rw [hdrop, ih hr]
          rfl
      · have hne1 : p.isPrefixOf t = false :=
          tokens_not_pref p hp t ht (fun h => htp h.symm)
        have hne2 : t.isPrefixOf p = false := tokens_not_pref t ht p hp htp
        have hnp : p.isPrefixOf (t ++ flatP r) = false :=
          not_isPrefixOf_append t p (flatP r) hne1 hne2
        show replaceAllLit p v (t ++ flatP r) = flatP (substPiece p v (PPiece.tok t) :: substTok p v r)
        rw [show substPiece p v (PPiece.tok t) = PPiece.tok t by simp [substPiece, htp]]
        cases t with
        | nil =>
          have := tokens_ne_empty _ ht
          simp at this
        | cons c ct =>
          have hct : braceFree ct = true := by
            have := (tokens_shape _ ht).2
            simpa using this
          rw [List.cons_append,
            replaceAllLit_cons_neg _ _ _ _ hpe (by rw [List.cons_append] at hnp; simp [hnp]),
            replaceAllLit_append_left p v hph ct (flatP r) hct, ih hr]
          rfl

theorem substTok_good (p v : JStr) (hv : braceFree v = true) (ps : List PPiece)
    (h : GoodPieces ps) : GoodPieces (substTok p v ps) := by
  intro pc hpc
  rw [substTok] at hpc
  obtain ⟨q, hq, hfq⟩ := List.mem_map.mp hpc
  subst hfq
  have hok := h q hq
  cases q with
  | lit s => exact hok
  | tok t =>
    by_cases htp : t = p
    · rw [show substPiece p v (PPiece.tok t) = PPiece.lit v by simp [substPiece, htp]]
      exact hv
    · rw [show substPiece p v (PPiece.tok t) = PPiece.tok t by simp [substPiece, htp]]
      exact hok

theorem dollarExpand_id (m b a : JStr) :
    ∀ (v : JStr), dollarFree v = true → dollarExpand m b a v = v := by
  intro v
  induction v with
  | nil => intro _; rfl
  | cons c rest ih =>
    intro hv
    have hc : c ≠ '$' := by
      have := List.all_eq_true.mp hv c (List.mem_cons_self c rest)
      simpa using this
    have hrest : dollarFree rest = true := by
      apply List.all_eq_true.mpr
      intro x hx
      exact List.all_eq_true.mp hv x (List.mem_cons_of_mem c hx)
    rw [dollarExpand.eq_def]
    dsimp only
    rw [if_neg hc]
    rw [ih hrest]

theorem raGo_eq_lit (p v full : JStr) (hv : dollarFree v = true) :
    ∀ (f pos : Nat) (s : JStr), raGo p v full f pos s = raLitGo p v f s := by
  intro f
  induction f with
  | zero => intro pos s; cases s <;> rfl
  | succ f ih =>
    intro pos s
    cases s with
    | nil => rfl
    | cons c t =>
      by_cases h : p.isPrefixOf (c :: t) = true
      · simp only [raGo, raLitGo, if_pos h]
        rw [dollarExpand_id _ _ _ v hv, ih]
      · simp only [raGo, raLitGo, if_neg h]
        rw [ih]

theorem replaceAll_eq_lit (p v s : JStr) (hv : dollarFree v = true) :
    replaceAll p v s = replaceAllLit p v s := by
  unfold replaceAll replaceAllLit
  by_cases hp : p.isEmpty = true
  · rw [if_pos hp, if_pos hp]
  · rw [if_neg hp, if_neg hp, raGo_eq_lit p v s hv]

theorem resolveChain_eq_lit (tmpl custom ctxp coh content sl tl : JStr)
    (d1 : dollarFree custom = true) (d2 : dollarFree ctxp = true)
    (d3 : dollarFree coh = true) (d4 : dollarFree content = true)
    (d5 : dollarFree sl = true) (d6 : dollarFree tl = true) :
    resolveChain tmpl custom ctxp coh content sl tl =
      resolveChainLit tmpl custom ctxp coh content sl tl := by
  unfold resolveChain resolveChainLit
  rw [replaceAll_eq_lit tokCustom custom _ d1]
  rw [replaceAll_eq_lit tokContextP ctxp _ d2]
  rw [replaceAll_eq_lit tokCoherence coh _ d3]
  rw [replaceAll_eq_lit tokContent content _ d4]
  rw [replaceAll_eq_lit tokSource sl _ d5]
  rw [replaceAll_eq_lit tokTarget tl _ d6]

theorem resolveChainLit_flat (ps : List PPiece) (custom ctxp coh content sl tl : JStr)
    (hps : GoodPieces ps) (h1 : braceFree custom = true) (h2 : braceFree ctxp = true)
    (h3 : braceFree coh = true) (h4 : braceFree content = true)
    (h5 : braceFree sl = true) (h6 : braceFree tl = true) :
    resolveChainLit (flatP ps) custom ctxp coh content sl tl =
      flatP (substAll custom ctxp coh content sl tl ps) := by
  unfold resolveChainLit substAll
  rw [replaceAllLit_flat tokCustom custom (by decide) h1 ps hps]
  rw [replaceAllLit_flat tokContextP ctxp (by decide) h2 _ (substTok_good _ _ h1 _ hps)]
  rw [replaceAllLit_flat tokCoherence coh (by decide) h3 _
    (substTok_good _ _ h2 _ (substTok_good _ _ h1 _ hps))]
  rw [replaceAllLit_flat tokContent content (by decide) h4 _
    (substTok_good _ _ h3 _ (substTok_good _ _ h2 _ (substTok_good _ _ h1 _ hps)))]
  rw [replaceAllLit_flat tokSource sl (by decide) h5 _
    (substTok_good _ _ h4 _ (substTok_good _ _ h3 _ (substTok_good _ _ h2 _
      (substTok_good _ _ h1 _ hps))))]
  rw [replaceAllLit_flat tokTarget tl (by decide) h6 _
    (substTok_good _ _ h5 _ (substTok_good _ _ h4 _ (substTok_good _ _ h3 _
      (substTok_good _ _ h2 _ (substTok_good _ _ h1 _ hps)))))]

theorem resolveChain_flat (ps : List PPiece) (custom ctxp coh content sl tl : JStr)
    (hps : GoodPieces ps) (h1 : braceFree custom = true) (h2 : braceFree ctxp = true)
    (h3 : braceFree coh = true) (h4 : braceFree content = true)
    (h5 : braceFree sl = true) (h6 : braceFree tl = true)
    (d1 : dollarFree custom = true) (d2 : dollarFree ctxp = true)
    (d3 : dollarFree coh = true) (d4 : dollarFree content = true)
    (d5 : dollarFree sl = true) (d6 : dollarFree tl = true) :
    resolveChain (flatP ps) custom ctxp coh content sl tl =
      flatP (substAll custom ctxp coh content sl tl ps) := by
  rw [resolveChain_eq_lit _ custom ctxp coh content sl tl d1 d2 d3 d4 d5 d6]
  exact resolveChainLit_flat ps custom ctxp coh content sl tl hps h1 h2 h3 h4 h5 h6

theorem substAll_lit (custom ctxp coh content sl tl : JStr)
    (h1 : braceFree custom = true) (h2 : braceFree ctxp = true)
    (h3 : braceFree coh = true) (h4 : braceFree content = true)
    (h5 : braceFree sl = true) (h6 : braceFree tl = true) :
    ∀ (ps : List PPiece), GoodPieces ps →
      ∀ pc ∈ substAll custom ctxp coh content sl tl ps,
        ∃ s, pc = PPiece.lit s ∧ braceFree s = true := by
  intro ps hps pc hpc
  unfold substAll substTok at hpc
  simp only [List.map_map, List.mem_map] at hpc
  obtain ⟨q, hq, hfq⟩ := hpc
  subst hfq
  have hok := hps q hq
  cases q with
  | lit s => exact ⟨s, rfl, hok⟩
  | tok t =>
    have ht : t ∈ TOKENS := by simpa [pieceOK] using hok
    simp only [TOKENS, List.mem_cons, List.not_mem_nil, or_false] at ht
    simp only [Function.comp]
    rcases ht with h | h | h | h | h | h <;> subst h
    · rw [show substPiece tokCustom custom (PPiece.tok tokCustom) = PPiece.lit custom
        by simp [substPiece]]
      exact ⟨custom, rfl, h1⟩
    · rw [show substPiece tokCustom custom (PPiece.tok tokContextP) = PPiece.tok tokContextP
        by simp [substPiece]; decide]
      rw [show substPiece tokContextP ctxp (PPiece.tok tokContextP) = PPiece.lit ctxp
        by simp [substPiece]]
      exact ⟨ctxp, rfl, h2⟩
    · rw [show substPiece tokCustom custom (PPiece.tok tokCoherence) = PPiece.tok tokCoherence
        by simp [substPiece]; decide]
      rw [show substPiece tokContextP ctxp (PPiece.tok tokCoherence) = PPiece.tok tokCoherence
        by simp [substPiece]; decide]
      rw [show substPiece tokCoherence coh (PPiece.tok tokCoherence) = PPiece.lit coh
        by simp [substPiece]]
      exact ⟨coh, rfl, h3⟩
    · rw [show substPiece tokCustom custom (PPiece.tok tokContent) = PPiece.tok tokContent
        by simp [substPiece]; decide]
      rw [show substPiece tokContextP ctxp (PPiece.tok tokContent) = PPiece.tok tokContent
        by simp [substPiece]; decide]
      rw [show substPiece tokCoherence coh (PPiece.tok tokContent) = PPiece.tok tokContent
        by simp [substPiece]; decide]
      rw [show substPiece tokContent content (PPiece.tok tokContent) = PPiece.lit content
        by simp [substPiece]]
      exact ⟨content, rfl, h4⟩
    · rw [show substPiece tokCustom custom (PPiece.tok tokSource) = PPiece.tok tokSource
        by simp [substPiece]; decide]
      rw [show substPiece tokContextP ctxp (PPiece.tok tokSource) = PPiece.tok tokSource
        by simp [substPiece]; decide]
      rw [show substPiece tokCoherence coh (PPiece.tok tokSource) = PPiece.tok tokSource
        by simp [substPiece]; decide]
      rw [show substPiece tokContent content (PPiece.tok tokSource) = PPiece.tok tokSource
        by simp [substPiece]; decide]
      rw [show substPiece tokSource sl (PPiece.tok tokSource) = PPiece.lit sl
        by simp [substPiece]]
      exact ⟨sl, rfl, h5⟩
    · rw [show substPiece tokCustom custom (PPiece.tok tokTarget) = PPiece.tok tokTarget
        by simp [substPiece]; decide]
      rw [show substPiece tokContextP ctxp (PPiece.tok tokTarget) = PPiece.tok tokTarget
        by simp [substPiece]; decide]
      rw [show substPiece tokCoherence coh (PPiece.tok tokTarget) = PPiece.tok tokTarget
        by simp [substPiece]; decide]
      rw [show substPiece tokContent content (PPiece.tok tokTarget) = PPiece.tok tokTarget
        by simp [substPiece]; decide]
      rw [show substPiece tokSource sl (PPiece.tok tokTarget) = PPiece.tok tokTarget
        by simp [substPiece]; decide]
      rw [show substPiece tokTarget tl (PPiece.tok tokTarget) = PPiece.lit tl
        by simp [substPiece]]
      exact ⟨tl, rfl, h6⟩

theorem flatP_braceFree :
    ∀ ps : List PPiece,
      (∀ pc ∈ ps, ∃ s, pc = PPiece.lit s ∧ braceFree s = true) →
      braceFree (flatP ps) = true := by
  intro ps
  induction ps with
  | nil => intro _; rfl
  | cons pc r ih =>
    intro h
    obtain ⟨s, hpc, hbf⟩ := h pc (List.mem_cons_self pc r)
    subst hpc
    show braceFree (s ++ flatP r) = true
    rw [braceFree, List.all_append]
    have hrest := ih (fun q hq => h q (List.mem_cons_of_mem _ hq))
    rw [braceFree] at hbf hrest
    simp [hbf, hrest]

/-- C5 counterexample.  The claim quantifies over every template and value
map, and it fails in two independent ways.  First, the chain substitutes
values that may themselves contain recognised tokens, and later passes do
not touch tokens introduced for placeholders already processed: with
template `{content}` and a unit text `{custom_prompt}`, the output still
contains the recognised token `{custom_prompt}`, and resolving the output
again changes it.  Second, JavaScript replacement strings are subject to
dollar substitution: with the unit text `$&`, the `{content}` pass
reinserts the matched token itself, so the output of resolving the
template `{content}` is again `{content}` — a recognised token survives
even though the value contains no token and no brace. -/
theorem claim5_cex :
    resolveChain (js "{content}") [] [] [] (js "{custom_prompt}") [] [] =
      js "{custom_prompt}"
    ∧ containsSub tokCustom
        (resolveChain (js "{content}") [] [] [] (js "{custom_prompt}") [] []) = true
    ∧ resolveChain (resolveChain (js "{content}") [] [] [] (js "{custom_prompt}") [] [])
        [] [] [] (js "{custom_prompt}") [] [] ≠
      resolveChain (js "{content}") [] [] [] (js "{custom_prompt}") [] []
    ∧ resolveChain (js "{content}") [] [] [] (js "$&") [] [] = js "{content}"
    ∧ containsSub tokContent
        (resolveChain (js "{content}") [] [] [] (js "$&") [] []) = true := by
  decide

/-- C5 as amended.  Resolution is a pure function of the template and the
values, so resolving the same inputs twice trivially yields identical
output.  Under the intended use — a well-formed template (brace-free
literal text interleaved with recognised placeholder tokens) and
substituted values containing no brace character and no dollar character
(so none of the JavaScript dollar-substitution patterns, which could
reinsert a matched token) — the chain leaves no recognised placeholder
token in the output (the output is brace-free altogether) and applying
resolution to the already-resolved text changes nothing.  The
counterexample shows the properties fail for arbitrary values, both
through token-valued values and through dollar patterns. -/
theorem claim5_resolution_amended (ps : List PPiece) (custom ctxp coh content sl tl : JStr)
    (hps : GoodPieces ps) (h1 : braceFree custom = true) (h2 : braceFree ctxp = true)
    (h3 : braceFree coh = true) (h4 : braceFree content = true)
    (h5 : braceFree sl = true) (h6 : braceFree tl = true)
    (d1 : dollarFree custom = true) (d2 : dollarFree ctxp = true)
    (d3 : dollarFree coh = true) (d4 : dollarFree content = true)
    (d5 : dollarFree sl = true) (d6 : dollarFree tl = true) :
    braceFree (resolveChain (flatP ps) custom ctxp coh content sl tl) = true
    ∧ (∀ t ∈ TOKENS,
        containsSub t (resolveChain (flatP ps) custom ctxp coh content sl tl) = false)
    ∧ resolveChain (resolveChain (flatP ps) custom ctxp coh content sl tl)
        custom ctxp coh content sl tl =
      resolveChain (flatP ps) custom ctxp coh content sl tl := by
  have hflat := resolveChain_flat ps custom ctxp coh content sl tl hps h1 h2 h3 h4 h5 h6
    d1 d2 d3 d4 d5 d6
  have hbf : braceFree (resolveChain (flatP ps) custom ctxp coh content sl tl) = true := by
    rw [hflat]
    exact flatP_braceFree _ (substAll_lit custom ctxp coh content sl tl h1 h2 h3 h4 h5 h6 ps hps)
  have hnc : ∀ t ∈ TOKENS,
      containsSub t (resolveChain (flatP ps) custom ctxp coh content sl tl) = false :=
    fun t ht => not_contains_of_braceFree t _ (tokens_brace t ht) hbf
  refine ⟨hbf, hnc, ?_⟩
  generalize hout : resolveChain (flatP ps) custom ctxp coh content sl tl = out at hnc ⊢
  rw [resolveChain_eq_lit out custom ctxp coh content sl tl d1 d2 d3 d4 d5 d6]
  unfold resolveChainLit
  rw [replaceAllLit_of_not_contains tokCustom custom _ (hnc tokCustom (by decide))]
  rw [replaceAllLit_of_not_contains tokContextP ctxp _ (hnc tokContextP (by decide))]
  rw [replaceAllLit_of_not_contains tokCoherence coh _ (hnc tokCoherence (by decide))]
  rw [replaceAllLit_of_not_contains tokContent content _ (hnc tokContent (by decide))]
  rw [replaceAllLit_of_not_contains tokSource sl _ (hnc tokSource (by decide))]
  rw [replaceAllLit_of_not_contains tokTarget tl _ (hnc tokTarget (by decide))]

/-- Witness for the amended C5 at a concrete well-formed template and
brace-free values. -/
theorem claim5_resolution_amended_witness :
    braceFree (resolveChain (flatP [PPiece.lit (js "Translate to "),
        PPiece.tok tokTarget, PPiece.lit (js ": "), PPiece.tok tokContent])
      (js "C") [] [] (js "hello") (js "en") (js "zh")) = true
    ∧ (∀ t ∈ TOKENS,
        containsSub t (resolveChain (flatP [PPiece.lit (js "Translate to "),
            PPiece.tok tokTarget, PPiece.lit (js ": "), PPiece.tok tokContent])
          (js "C") [] [] (js "hello") (js "en") (js "zh")) = false)
    ∧ resolveChain (resolveChain (flatP [PPiece.lit (js "Translate to "),
          PPiece.tok tokTarget, PPiece.lit (js ": "), PPiece.tok tokContent])
        (js "C") [] [] (js "hello") (js "en") (js "zh"))
        (js "C") [] [] (js "hello") (js "en") (js "zh") =
      resolveChain (flatP [PPiece.lit (js "Translate to "),
          PPiece.tok tokTarget, PPiece.lit (js ": "), PPiece.tok tokContent])
        (js "C") [] [] (js "hello") (js "en") (js "zh") := by
  exact claim5_resolution_amended
    [PPiece.lit (js "Translate to "), PPiece.tok tokTarget,
     PPiece.lit (js ": "), PPiece.tok tokContent]
    (js "C") [] [] (js "hello") (js "en") (js "zh")
    (by unfold GoodPieces; decide) (by decide) (by decide) (by decide) (by decide)
    (by decide) (by decide) (by decide) (by decide) (by decide) (by decide)
    (by decide) (by decide)
